import Mathlib

/-!
Verification of the team-formation core of `team_formation.py`.

Representation conventions of the shallow embedding:
* a Python `dict` is an association list whose keys are in insertion order
  (`List (String × _)`); `d.get(k, default)` is `(l.lookup k).getD default`;
* a Python `set` is a `List String` without duplicates (iteration order is the
  construction order; Python set iteration order is arbitrary but fixed);
  set union, equality and membership are modelled by `listUnion`, `listSetEq`
  and list membership;
* Python `sorted` (a stable sort) is modelled by the stable insertion sort
  `sortBy`;
* fallible dictionary subscripts (`d[k]`) are modelled with `Option` in the
  `_checked` variant of `calculate_team_project_prefs`.
-/

namespace TeamFormation

/-! ## Definitions -/
/-- Stable ordered insert: place `a` before the first element `b` with `le a b`. -/
def orderedInsertBy (le : α → α → Bool) (a : α) : List α → List α
  | [] => [a]
  | b :: l => if le a b then a :: b :: l else b :: orderedInsertBy le a l

/-- Stable insertion sort, the model of Python `sorted(xs, key=...)`. -/
def sortBy (le : α → α → Bool) : List α → List α
  | [] => []
  | a :: l => orderedInsertBy le a (sortBy le l)

/-- Set union on the list model of Python sets. -/
def listUnion (a b : List String) : List String :=
  a ++ b.filter (fun x => decide (x ∉ a))

/-- Set equality test on the list model of Python sets. -/
def listSetEq (a b : List String) : Bool :=
  a.all (fun x => decide (x ∈ b)) && b.all (fun x => decide (x ∈ a))

/-- Explicit enumeration with a starting index, the model of Python `enumerate`. -/
def enumFrom : Nat → List α → List (Nat × α)
  | _, [] => []
  | n, a :: l => (n, a) :: enumFrom (n + 1) l

/-! ### Data model -/

/-- `subteam_prefs`: netID to the list of netIDs they want to work with. -/
abbrev ReqMap := List (String × List String)

/-- One student's project-preference dict: project name to rank. -/
abbrev StudentPrefs := List (String × Int)

/-- `project_prefs`: netID to project-preference dict. -/
abbrev PrefMap := List (String × StudentPrefs)

/-- A subteam record, Python dict with keys `members` and `size`. -/
structure Team where
  members : List String
  size : Nat
deriving DecidableEq

/-- A merged-team record: `members`, provenance and final `size`.  The source
subteams are recorded by their used-set keys `(size, index)`, the identifiers
the Python code tracks consumption with. -/
structure MergedTeam where
  members : List String
  source_keys : List (Nat × Nat)
  size : Nat
deriving DecidableEq

/-! ### `validate_subteam` (team_formation.py lines 715-741) -/

/-- Embeds `validate_subteam(members, subteam_prefs)`: every member's request
list must equal, as a set, the other members. -/
def validate_subteam (members : List String) (subteam_prefs : ReqMap) : Bool :=
  let members_set := members.dedup
  members_set.all (fun member =>
    let member_prefs := (subteam_prefs.lookup member).getD []
    let expected_prefs := members_set.filter (fun x => decide (x ≠ member))
    listSetEq member_prefs expected_prefs)

/-! ### `identify_subteams` (lines 744-808) -/

structure SubteamsData where
  complete_subteams : List (List String)
  individuals : List String
deriving DecidableEq

/-- One iteration of the discovery loop over `sorted_people`. -/
def discover_step (subteam_prefs : ReqMap) (st : List (List String) × List String)
    (p : String × List String) : List (List String) × List String :=
  if p.1 ∈ st.2 then st
  else if p.2 = [] then st
  else
    let potential_team := (p.1 :: p.2).dedup
    if validate_subteam potential_team subteam_prefs then
      if potential_team.all (fun x => decide (x ∉ st.2)) then
        (st.1 ++ [potential_team], listUnion st.2 potential_team)
      else st
    else st

/-- The discovery loop: people sorted by descending request-list size (Python
`sorted(..., key=len, reverse=True)`, stable), folded from the empty state.
The second state component is the `assigned` set. -/
def discover_state (subteam_prefs : ReqMap) : List (List String) × List String :=
  (sortBy (fun a b => decide (b.2.length ≤ a.2.length)) subteam_prefs).foldl
    (discover_step subteam_prefs) ([], [])

/-- Embeds `identify_subteams(subteam_prefs)`: the greedy discovery of valid,
complete subteams; everyone not assigned to one becomes an individual. -/
def identify_subteams (subteam_prefs : ReqMap) : SubteamsData :=
  let st := discover_state subteam_prefs
  let all_people := (subteam_prefs.map Prod.fst).dedup
  { complete_subteams := st.1
    individuals := all_people.filter (fun x => decide (x ∉ st.2)) }

/-! ### `calculate_team_project_prefs` (lines 811-858) -/

/-- `set(project_prefs.get(netid, dict()).keys())` as a list. -/
def memberProjects (project_prefs : PrefMap) (netid : String) : List String :=
  ((project_prefs.lookup netid).getD []).map Prod.fst

/-- The loop computing `common_projects`: the first member's projects,
intersected with every further member's projects. -/
def common_projects_list (project_prefs : PrefMap) (t0 : String) (rest : List String) :
    List String :=
  rest.foldl
    (fun common netid => common.filter (fun p => decide (p ∈ memberProjects project_prefs netid)))
    ((memberProjects project_prefs t0).dedup)

/-- Score ordering used by `sorted(project_scores.items(), key=aggregate_score)`. -/
def scoreLe (a b : String × Int × List Int) : Bool := decide (a.2.1 ≤ b.2.1)

/-- The unguarded subscript `project_prefs[netid][project]` of the rankings
loop (given the irrelevant default `0`; see the `_checked` variant). -/
def rank (project_prefs : PrefMap) (project netid : String) : Int :=
  ((((project_prefs.lookup netid).getD []).lookup project)).getD 0

/-- Embeds `calculate_team_project_prefs(team_members, project_prefs)`.
Result entries are `(project, aggregate_score, rankings)`, sorted by aggregate
score ascending (stably, as Python `sorted`).  The unguarded Python subscript
`project_prefs[netid][project]` is given the default `0`; the `_checked`
variant below models its possible failure, and the two are proved to agree. -/
def calculate_team_project_prefs (team_members : List String) (project_prefs : PrefMap) :
    List (String × Int × List Int) :=
  match team_members with
  | [] => []
  | t0 :: rest =>
    let common_projects := common_projects_list project_prefs t0 rest
    let project_scores := common_projects.map (fun project =>
      let rankings := team_members.map (rank project_prefs project)
      (project, rankings.sum, rankings))
    sortBy scoreLe project_scores

/-- `calculate_team_project_prefs` with the two dictionary subscripts modelled
as fallible lookups (`none` = Python `KeyError`). -/
def calculate_team_project_prefs_checked (team_members : List String)
    (project_prefs : PrefMap) : Option (List (String × Int × List Int)) :=
  match team_members with
  | [] => some []
  | t0 :: rest =>
    let common_projects := common_projects_list project_prefs t0 rest
    (common_projects.mapM (fun project =>
      (team_members.mapM (fun netid =>
        (project_prefs.lookup netid).bind (fun d => d.lookup project))).map
        (fun rankings => (project, rankings.sum, rankings)))).map
      (sortBy scoreLe)

/-! ### `classify_subteams` (lines 877-934) -/

/-- The `incomplete_subteams` dict with keys 1-4. -/
structure IncompleteBySize where
  inc1 : List Team
  inc2 : List Team
  inc3 : List Team
  inc4 : List Team
deriving DecidableEq

structure ClassifiedTeams where
  complete_teams : List Team
  incomplete_subteams : IncompleteBySize
deriving DecidableEq

/-- `incomplete_subteams[size].append(team_obj)` for `size` in 1-4. -/
def addIncomplete (inc : IncompleteBySize) (size : Nat) (team_obj : Team) :
    IncompleteBySize :=
  match size with
  | 1 => { inc with inc1 := inc.inc1 ++ [team_obj] }
  | 2 => { inc with inc2 := inc.inc2 ++ [team_obj] }
  | 3 => { inc with inc3 := inc.inc3 ++ [team_obj] }
  | 4 => { inc with inc4 := inc.inc4 ++ [team_obj] }
  | _ => inc

/-- One iteration of the classification loop over `complete_subteams`. -/
def classify_step (r : ClassifiedTeams) (subteam : List String) : ClassifiedTeams :=
  let size := subteam.length
  let team_obj : Team := ⟨subteam, size⟩
  if 5 ≤ size ∧ size ≤ 6 then
    { r with complete_teams := r.complete_teams ++ [team_obj] }
  else if 1 ≤ size ∧ size ≤ 4 then
    { r with incomplete_subteams := addIncomplete r.incomplete_subteams size team_obj }
  else
    r

/-- Embeds `classify_subteams(subteams_data)`: size 5-6 to `complete_teams`,
size 1-4 to `incomplete_subteams[size]`, each individual as a singleton of
size 1; any other size falls through both conditions. -/
def classify_subteams (subteams_data : SubteamsData) : ClassifiedTeams :=
  let r := subteams_data.complete_subteams.foldl classify_step ⟨[], ⟨[], [], [], []⟩⟩
  { r with incomplete_subteams :=
      { r.incomplete_subteams with inc1 :=
          r.incomplete_subteams.inc1 ++
            subteams_data.individuals.map (fun individual => ⟨[individual], 1⟩) } }

/-! ### `check_compatibility` (lines 937-954) -/

/-- The body of `check_compatibility` on raw member sets (the Python helper is
also called on ad-hoc dicts that carry only a `members` key). -/
def check_compat_members (m1 m2 : List String) (project_prefs : PrefMap) : Bool :=
  decide (0 < (calculate_team_project_prefs (listUnion m1 m2) project_prefs).length)

/-- Embeds `check_compatibility(subteam1, subteam2, project_prefs)`. -/
def check_compatibility (subteam1 subteam2 : Team) (project_prefs : PrefMap) : Bool :=
  check_compat_members subteam1.members subteam2.members project_prefs

/-! ### `merge_subteams_into_teams` (lines 957-1197) -/

structure MergeState where
  formed_teams : List MergedTeam
  used : List (Nat × Nat)
deriving DecidableEq

/-- `(size, idx) in used`. -/
def is_used (used : List (Nat × Nat)) (k : Nat × Nat) : Bool := decide (k ∈ used)

/-- `used.add((size, idx))`. -/
def markUsed (used : List (Nat × Nat)) (k : Nat × Nat) : List (Nat × Nat) :=
  if k ∈ used then used else used ++ [k]

/-- Linear scan with explicit indices: the first element (with its index,
counted from `n`) satisfying the predicate. -/
def findFrom (p : Nat → Team → Bool) : Nat → List Team → Option (Nat × Team)
  | _, [] => none
  | j, t :: rest => if p j t then some (j, t) else findFrom p (j + 1) rest

/-- Strategy 1 body for one `(i, team4)`: size 4 + size 2 = 6, else
size 4 + size 1 = 5. -/
def strat1_step (project_prefs : PrefMap) (inc2 inc1 : List Team)
    (st : MergeState) (it : Nat × Team) : MergeState :=
  let i := it.1
  let team4 := it.2
  if is_used st.used (4, i) then st
  else
    match findFrom (fun j team2 =>
        !(is_used st.used (2, j)) && check_compatibility team4 team2 project_prefs) 0 inc2 with
    | some (j, team2) =>
      let merged : MergedTeam :=
        ⟨listUnion team4.members team2.members, [(4, i), (2, j)], 6⟩
      ⟨st.formed_teams ++ [merged], markUsed (markUsed st.used (4, i)) (2, j)⟩
    | none =>
      match findFrom (fun j team1 =>
          !(is_used st.used (1, j)) && check_compatibility team4 team1 project_prefs) 0 inc1 with
      | some (j, team1) =>
        let merged : MergedTeam :=
          ⟨listUnion team4.members team1.members, [(4, i), (1, j)], 5⟩
        ⟨st.formed_teams ++ [merged], markUsed (markUsed st.used (4, i)) (1, j)⟩
      | none => st

/-- Strategy 2 body for one `(i, team3a)`: size 3 + size 3 = 6 (only partners
with index `j > i`), else size 3 + size 2 = 5. -/
def strat2_step (project_prefs : PrefMap) (inc3 inc2 : List Team)
    (st : MergeState) (it : Nat × Team) : MergeState :=
  let i := it.1
  let team3a := it.2
  if is_used st.used (3, i) then st
  else
    match findFrom (fun j team3b =>
        decide (i < j) && !(is_used st.used (3, j)) &&
          check_compatibility team3a team3b project_prefs) 0 inc3 with
    | some (j, team3b) =>
      let merged : MergedTeam :=
        ⟨listUnion team3a.members team3b.members, [(3, i), (3, j)], 6⟩
      ⟨st.formed_teams ++ [merged], markUsed (markUsed st.used (3, i)) (3, j)⟩
    | none =>
      match findFrom (fun j team2 =>
          !(is_used st.used (2, j)) && check_compatibility team3a team2 project_prefs) 0 inc2 with
      | some (j, team2) =>
        let merged : MergedTeam :=
          ⟨listUnion team3a.members team2.members, [(3, i), (2, j)], 5⟩
        ⟨st.formed_teams ++ [merged], markUsed (markUsed st.used (3, i)) (2, j)⟩
      | none => st

/-- The inner `k` scan of strategy 3, first phase: a third size-2 subteam with
`k > j`, unused, whose union with the partial merge still has a common project. -/
def find_third2 (project_prefs : PrefMap) (used : List (Nat × Nat)) (j : Nat)
    (ab : List String) (inc2 : List Team) : Option (Nat × Team) :=
  findFrom (fun k team2c =>
    decide (j < k) && !(is_used used (2, k)) &&
      check_compat_members ab team2c.members project_prefs) 0 inc2

/-- The `j` scan of strategy 3, first phase: the first `j > i`, unused,
compatible with `team2a`, for which a third partner exists. -/
def find_pair22 (project_prefs : PrefMap) (used : List (Nat × Nat)) (i : Nat)
    (team2a : Team) (inc2all : List Team) :
    Nat → List Team → Option (Nat × Team × Nat × Team)
  | _, [] => none
  | j, b :: rest =>
    if decide (i < j) && !(is_used used (2, j)) &&
        check_compatibility team2a b project_prefs then
      match find_third2 project_prefs used j (listUnion team2a.members b.members) inc2all with
      | some (k, c) => some (j, b, k, c)
      | none => find_pair22 project_prefs used i team2a inc2all (j + 1) rest
    else find_pair22 project_prefs used i team2a inc2all (j + 1) rest

/-- The inner `k` scan of strategy 3, second phase: an unused size-1 subteam
compatible with the partial merge. -/
def find_third1 (project_prefs : PrefMap) (used : List (Nat × Nat))
    (ab : List String) (inc1 : List Team) : Option (Nat × Team) :=
  findFrom (fun k team1 =>
    !(is_used used (1, k)) && check_compat_members ab team1.members project_prefs) 0 inc1

/-- The `j` scan of strategy 3, second phase (2 + 2 + 1 = 5). -/
def find_pair21 (project_prefs : PrefMap) (used : List (Nat × Nat)) (i : Nat)
    (team2a : Team) (inc1 : List Team) :
    Nat → List Team → Option (Nat × Team × Nat × Team)
  | _, [] => none
  | j, b :: rest =>
    if decide (i < j) && !(is_used used (2, j)) &&
        check_compatibility team2a b project_prefs then
      match find_third1 project_prefs used (listUnion team2a.members b.members) inc1 with
      | some (k, c) => some (j, b, k, c)
      | none => find_pair21 project_prefs used i team2a inc1 (j + 1) rest
    else find_pair21 project_prefs used i team2a inc1 (j + 1) rest

/-- Strategy 3 body for one `(i, team2a)`: 2 + 2 + 2 = 6, else 2 + 2 + 1 = 5. -/
def strat3_step (project_prefs : PrefMap) (inc2 inc1 : List Team)
    (st : MergeState) (it : Nat × Team) : MergeState :=
  let i := it.1
  let team2a := it.2
  if is_used st.used (2, i) then st
  else
    match find_pair22 project_prefs st.used i team2a inc2 0 inc2 with
    | some (j, team2b, k, team2c) =>
      let merged : MergedTeam :=
        ⟨listUnion (listUnion team2a.members team2b.members) team2c.members,
          [(2, i), (2, j), (2, k)], 6⟩
      ⟨st.formed_teams ++ [merged],
        markUsed (markUsed (markUsed st.used (2, i)) (2, j)) (2, k)⟩
    | none =>
      match find_pair21 project_prefs st.used i team2a inc1 0 inc2 with
      | some (j, team2b, k, team1) =>
        let merged : MergedTeam :=
          ⟨listUnion (listUnion team2a.members team2b.members) team1.members,
            [(2, i), (2, j), (1, k)], 5⟩
        ⟨st.formed_teams ++ [merged],
          markUsed (markUsed (markUsed st.used (2, i)) (2, j)) (1, k)⟩
      | none => st

/-- The still-unused size-1 subteams, with their original indices. -/
def available_individuals (inc1 : List Team) (used : List (Nat × Nat)) :
    List (Nat × Team) :=
  (enumFrom 0 inc1).filter (fun p => !(is_used used (1, p.1)))

/-- `combined` built by the window loop of strategy 4. -/
def window_members (w : List (Nat × Team)) : List String :=
  w.foldl (fun acc p => listUnion acc p.2.members) []

/-- The window scan of strategy 4: the first contiguous window of
`group_size` still-available individuals with a common project. -/
def find_window (project_prefs : PrefMap) (group_size : Nat) :
    List (Nat × Team) → Option (List (Nat × Team))
  | [] => none
  | x :: rest =>
    let candidate := (x :: rest).take group_size
    if candidate.length = group_size &&
        decide (0 < (calculate_team_project_prefs (window_members candidate)
          project_prefs).length) then
      some candidate
    else find_window project_prefs group_size rest

/-- Commit one individual window as a formed team. -/
def commit_window (st : MergeState) (w : List (Nat × Team)) (group_size : Nat) :
    MergeState :=
  let merged : MergedTeam :=
    ⟨window_members w, w.map (fun p => (1, p.1)), group_size⟩
  ⟨st.formed_teams ++ [merged], w.foldl (fun u p => markUsed u (1, p.1)) st.used⟩

/-- Strategy 4: while at least 5 individuals remain, take the first compatible
window of 6, else of 5; stop when none exists.  Each successful round consumes
at least five individuals, so `inc1.length + 1` rounds of fuel always suffice. -/
def strat4_loop (project_prefs : PrefMap) (inc1 : List Team) :
    Nat → MergeState → MergeState
  | 0, st => st
  | fuel + 1, st =>
    let avail := available_individuals inc1 st.used
    if avail.length < 5 then st
    else
      match find_window project_prefs 6 avail with
      | some w => strat4_loop project_prefs inc1 fuel (commit_window st w 6)
      | none =>
        match find_window project_prefs 5 avail with
        | some w => strat4_loop project_prefs inc1 fuel (commit_window st w 5)
        | none => st

/-- The state after all four merging strategies. -/
def merge_state (incomplete : IncompleteBySize) (project_prefs : PrefMap) : MergeState :=
  let st1 := (enumFrom 0 incomplete.inc4).foldl
    (strat1_step project_prefs incomplete.inc2 incomplete.inc1) ⟨[], []⟩
  let st2 := (enumFrom 0 incomplete.inc3).foldl
    (strat2_step project_prefs incomplete.inc3 incomplete.inc2) st1
  let st3 := (enumFrom 0 incomplete.inc2).foldl
    (strat3_step project_prefs incomplete.inc2 incomplete.inc1) st2
  strat4_loop project_prefs incomplete.inc1 (incomplete.inc1.length + 1) st3

/-- `incomplete_subteams[s]` for `s` in 1-4 (other keys do not occur). -/
def incList (incomplete : IncompleteBySize) : Nat → List Team
  | 1 => incomplete.inc1
  | 2 => incomplete.inc2
  | 3 => incomplete.inc3
  | 4 => incomplete.inc4
  | _ => []

/-- The subteam a used-set key addresses. -/
def teamAt (incomplete : IncompleteBySize) (k : Nat × Nat) : Team :=
  (incList incomplete k.1).getD k.2 ⟨[], 0⟩

/-- The unmatched sweep over sizes 4, 3, 2, 1. -/
def collect_unmatched (incomplete : IncompleteBySize) (used : List (Nat × Nat)) :
    List Team :=
  ((enumFrom 0 incomplete.inc4).filter (fun p => !(is_used used (4, p.1)))).map Prod.snd ++
  ((enumFrom 0 incomplete.inc3).filter (fun p => !(is_used used (3, p.1)))).map Prod.snd ++
  ((enumFrom 0 incomplete.inc2).filter (fun p => !(is_used used (2, p.1)))).map Prod.snd ++
  ((enumFrom 0 incomplete.inc1).filter (fun p => !(is_used used (1, p.1)))).map Prod.snd

structure MergeResult where
  formed_teams : List MergedTeam
  unmatched : List Team
deriving DecidableEq

/-- Embeds `merge_subteams_into_teams(incomplete_subteams, project_prefs)`. -/
def merge_subteams_into_teams (incomplete : IncompleteBySize)
    (project_prefs : PrefMap) : MergeResult :=
  let st := merge_state incomplete project_prefs
  ⟨st.formed_teams, collect_unmatched incomplete st.used⟩

/-! ### Project assignment (lines 1200-1299 and 1302-1404) -/

structure Assignment where
  team_members : List String
  project : String
  aggregate_score : Int
  individual_rankings : List Int
deriving DecidableEq

structure MergedAssignment where
  team_members : List String
  project : String
  aggregate_score : Int
  individual_rankings : List Int
  source_subteams_count : Nat
deriving DecidableEq

/-- `sorted(team['members'])`. -/
def sortedMembers (members : List String) : List String :=
  sortBy (fun a b => decide (a ≤ b)) members

/-- The per-team body shared by both assignment functions: `none` models the
skipped (`continue`) branch taken when the team has no common project. -/
def assign_team (project_prefs : PrefMap) (members : List String) : Option Assignment :=
  match calculate_team_project_prefs members project_prefs with
  | [] => none
  | (best_project, score, rankings) :: _ =>
    some ⟨sortedMembers members, best_project, score, rankings⟩

/-- Embeds `assign_projects_to_complete_subteams(complete_teams, project_prefs)`:
teams with no common project are skipped (with a printed diagnostic) and the
loop continues; the returned list holds the remaining assignments. -/
def assign_projects_to_complete_subteams (complete_teams : List Team)
    (project_prefs : PrefMap) : List Assignment :=
  complete_teams.filterMap (fun team => assign_team project_prefs team.members)

/-- Embeds `assign_projects_to_merged_teams(merged_teams, project_prefs)`. -/
def assign_projects_to_merged_teams (merged_teams : List MergedTeam)
    (project_prefs : PrefMap) : List MergedAssignment :=
  merged_teams.filterMap (fun team =>
    (assign_team project_prefs team.members).map (fun a =>
      ⟨a.team_members, a.project, a.aggregate_score, a.individual_rankings,
        team.source_keys.length⟩))

/-! ### Lemmas about the common-project computation -/

/-- The team has at least one project common to all members' top-5 lists. -/
def hasCommonProject (project_prefs : PrefMap) (members : List String) : Prop :=
  ∃ p, ∀ m ∈ members, p ∈ memberProjects project_prefs m

/-- The assignment record built for a team that does have a common project
(the empty-intersection branch never reaches it). -/
def assignOf (project_prefs : PrefMap) (team : Team) : Assignment :=
  match calculate_team_project_prefs team.members project_prefs with
  | [] => ⟨sortedMembers team.members, "", 0, []⟩
  | (best_project, score, rankings) :: _ =>
    ⟨sortedMembers team.members, best_project, score, rankings⟩

/-- The merged-team assignment record, with its provenance count. -/
def mergedAssignOf (project_prefs : PrefMap) (team : MergedTeam) : MergedAssignment :=
  match calculate_team_project_prefs team.members project_prefs with
  | [] => ⟨sortedMembers team.members, "", 0, [], team.source_keys.length⟩
  | (best_project, score, rankings) :: _ =>
    ⟨sortedMembers team.members, best_project, score, rankings,
      team.source_keys.length⟩

/-! ### Claims C5 and C8: the discoverer -/

/-- Invariant of the discovery loop: `assigned` is exactly the union of the
committed subteams, the committed subteams are pairwise disjoint and were all
validated, and each arose from a request-map entry with a non-empty list. -/
def DiscInv (rm : ReqMap) (st : List (List String) × List String) : Prop :=
  (∀ x ∈ st.2, ∃ T ∈ st.1, x ∈ T) ∧
  (∀ T ∈ st.1, ∀ x ∈ T, x ∈ st.2) ∧
  st.1.Pairwise (fun T U => ∀ x ∈ T, x ∉ U) ∧
  st.2.Nodup ∧
  (∀ T ∈ st.1, T.Nodup ∧ validate_subteam T rm = true ∧
    ∃ q ∈ rm, q.2 ≠ [] ∧ T = (q.1 :: q.2).dedup)

/-! ### Claims C1 and C10: the merger -/

/-- A used-set key addresses an actual entry of `incomplete_subteams`. -/
def keyValid (incomplete : IncompleteBySize) (k : Nat × Nat) : Prop :=
  (1 ≤ k.1 ∧ k.1 ≤ 4) ∧ k.2 < (incList incomplete k.1).length

/-- The members reachable from a list of used-set keys. -/
def keysMembers (incomplete : IncompleteBySize) (ks : List (Nat × Nat)) :
    Finset String :=
  ks.foldr (fun k acc => (teamAt incomplete k).members.toFinset ∪ acc) ∅

/-- Hypothesis of C1: every entry of `incompleteBySize[s]` is a subteam of the
listed size `s` (a set, so duplicate-free). -/
def SizedEntries (incomplete : IncompleteBySize) : Prop :=
  ∀ s ∈ [1, 2, 3, 4], ∀ t ∈ incList incomplete s,
    t.members.Nodup ∧ t.members.length = s

/-- Hypothesis of C1: distinct entries of `incompleteBySize` are disjoint. -/
def DisjointEntries (incomplete : IncompleteBySize) : Prop :=
  ∀ s1 ∈ [1, 2, 3, 4], ∀ s2 ∈ [1, 2, 3, 4],
    ∀ i1, i1 < (incList incomplete s1).length →
      ∀ i2, i2 < (incList incomplete s2).length →
        (s1, i1) ≠ (s2, i2) →
        ∀ x ∈ (teamAt incomplete (s1, i1)).members,
          x ∉ (teamAt incomplete (s2, i2)).members

/-- What holds of a merged team at the moment it is committed. -/
def NewTeamOK (incomplete : IncompleteBySize) (project_prefs : PrefMap)
    (used : List (Nat × Nat)) (F : MergedTeam) : Prop :=
  (F.size = 5 ∨ F.size = 6) ∧
  F.size = (F.source_keys.map Prod.fst).sum ∧
  F.members.toFinset = keysMembers incomplete F.source_keys ∧
  hasCommonProject project_prefs F.members ∧
  F.source_keys.Nodup ∧
  (∀ k ∈ F.source_keys, keyValid incomplete k ∧ is_used used k = false)

/-- Invariant maintained by all four merging strategies. -/
def StInv (incomplete : IncompleteBySize) (project_prefs : PrefMap)
    (st : MergeState) : Prop :=
  (∀ F ∈ st.formed_teams,
    (F.size = 5 ∨ F.size = 6) ∧
    F.size = (F.source_keys.map Prod.fst).sum ∧
    F.members.toFinset = keysMembers incomplete F.source_keys ∧
    hasCommonProject project_prefs F.members ∧
    F.source_keys.Nodup ∧
    (∀ k ∈ F.source_keys, keyValid incomplete k ∧ k ∈ st.used)) ∧
  st.formed_teams.Pairwise (fun F G => ∀ k ∈ F.source_keys, k ∉ G.source_keys)

/-- A single loop iteration either leaves the state unchanged or commits one
well-formed team built from fresh keys. -/
def StepOK (incomplete : IncompleteBySize) (project_prefs : PrefMap)
    (st stNew : MergeState) : Prop :=
  (∀ k ∈ st.used, k ∈ stNew.used) ∧
  ((stNew.formed_teams = st.formed_teams ∧ stNew.used = st.used) ∨
    ∃ F, stNew.formed_teams = st.formed_teams ++ [F] ∧
      NewTeamOK incomplete project_prefs st.used F ∧
      (∀ k, k ∈ stNew.used ↔ k ∈ st.used ∨ k ∈ F.source_keys))

/-! ## Theorems -/

theorem orderedInsertBy_perm (le : α → α → Bool) (a : α) :
    ∀ l : List α, List.Perm (orderedInsertBy le a l) (a :: l) := by
  intro l
  induction l with
  | nil => simp [orderedInsertBy]
  | cons b l ih =>
    simp only [orderedInsertBy]
    split
    · exact List.Perm.refl _
    · exact (ih.cons b).trans (List.Perm.swap a b l)

theorem sortBy_perm (le : α → α → Bool) : ∀ l : List α, List.Perm (sortBy le l) l := by
  intro l
  induction l with
  | nil => exact List.Perm.refl _
  | cons a l ih =>
    exact (orderedInsertBy_perm le a (sortBy le l)).trans (ih.cons a)

theorem mem_sortBy {le : α → α → Bool} {l : List α} {x : α} :
    x ∈ sortBy le l ↔ x ∈ l :=
  (sortBy_perm le l).mem_iff

theorem length_sortBy (le : α → α → Bool) (l : List α) :
    (sortBy le l).length = l.length :=
  (sortBy_perm le l).length_eq

theorem pairwise_orderedInsertBy {le : α → α → Bool}
    (htrans : ∀ a b c, le a b = true → le b c = true → le a c = true)
    (htot : ∀ a b, le a b = true ∨ le b a = true) (a : α) :
    ∀ l : List α, l.Pairwise (fun x y => le x y = true) →
      (orderedInsertBy le a l).Pairwise (fun x y => le x y = true) := by
  intro l
  induction l with
  | nil => intro _; exact List.pairwise_singleton _ a
  | cons b l ih =>
    intro h
    rcases List.pairwise_cons.mp h with ⟨hb, hl⟩
    simp only [orderedInsertBy]
    split
    · rename_i hab
      refine List.pairwise_cons.mpr ⟨?_, h⟩
      intro y hy
      rcases List.mem_cons.mp hy with rfl | hy
      · exact hab
      · exact htrans a b y hab (hb y hy)
    · rename_i hab
      have hba : le b a = true := (htot a b).resolve_left hab
      refine List.pairwise_cons.mpr ⟨?_, ih hl⟩
      intro y hy
      rcases List.mem_cons.mp ((orderedInsertBy_perm le a l).mem_iff.mp hy) with rfl | hy
      · exact hba
      · exact hb y hy

theorem pairwise_sortBy {le : α → α → Bool}
    (htrans : ∀ a b c, le a b = true → le b c = true → le a c = true)
    (htot : ∀ a b, le a b = true ∨ le b a = true) :
    ∀ l : List α, (sortBy le l).Pairwise (fun x y => le x y = true) := by
  intro l
  induction l with
  | nil => exact List.Pairwise.nil
  | cons a l ih => exact pairwise_orderedInsertBy htrans htot a _ ih

/-- The head of a sorted list is a minimum of the original list. -/
theorem sortBy_head_min {le : α → α → Bool}
    (htrans : ∀ a b c, le a b = true → le b c = true → le a c = true)
    (htot : ∀ a b, le a b = true ∨ le b a = true) {l : List α} {x : α} {xs : List α}
    (h : sortBy le l = x :: xs) : ∀ y ∈ l, le x y = true := by
  intro y hy
  have hy' : y ∈ x :: xs := h ▸ mem_sortBy.mpr hy
  rcases List.mem_cons.mp hy' with rfl | hy'
  · rcases htot y y with h' | h' <;> exact h'
  · have hp : (sortBy le l).Pairwise (fun x y => le x y = true) :=
      pairwise_sortBy htrans htot l
    rw [h] at hp
    exact (List.pairwise_cons.mp hp).1 y hy'

theorem mem_listUnion {a b : List String} {x : String} :
    x ∈ listUnion a b ↔ x ∈ a ∨ x ∈ b := by
  simp only [listUnion, List.mem_append, List.mem_filter, decide_eq_true_eq]
  constructor
  · rintro (h | ⟨h, _⟩)
    · exact Or.inl h
    · exact Or.inr h
  · rintro (h | h)
    · exact Or.inl h
    · by_cases ha : x ∈ a
      · exact Or.inl ha
      · exact Or.inr ⟨h, ha⟩

theorem listUnion_toFinset (a b : List String) :
    (listUnion a b).toFinset = a.toFinset ∪ b.toFinset := by
  ext x
  simp [mem_listUnion]

theorem listUnion_nodup {a b : List String} (ha : a.Nodup) (hb : b.Nodup) :
    (listUnion a b).Nodup := by
  refine List.Nodup.append ha (hb.filter _) ?_
  intro x hxa hxb
  rcases List.mem_filter.mp hxb with ⟨_, hdec⟩
  exact (decide_eq_true_eq.mp hdec) hxa

theorem listSetEq_iff {a b : List String} :
    listSetEq a b = true ↔ a.toFinset = b.toFinset := by
  simp only [listSetEq, Bool.and_eq_true, List.all_eq_true, decide_eq_true_eq]
  constructor
  · rintro ⟨h1, h2⟩
    ext x
    simp only [List.mem_toFinset]
    exact ⟨fun hx => h1 x hx, fun hx => h2 x hx⟩
  · intro h
    constructor
    · intro x hx
      have hx' : x ∈ a.toFinset := List.mem_toFinset.mpr hx
      rw [h] at hx'
      exact List.mem_toFinset.mp hx'
    · intro x hx
      have hx' : x ∈ b.toFinset := List.mem_toFinset.mpr hx
      rw [← h] at hx'
      exact List.mem_toFinset.mp hx'

theorem mem_enumFrom (d : α) :
    ∀ {n : Nat} {l : List α} {i : Nat} {a : α}, (i, a) ∈ enumFrom n l →
      n ≤ i ∧ i - n < l.length ∧ l.getD (i - n) d = a := by
  intro n l
  induction l generalizing n with
  | nil => intro i a h; simp [enumFrom] at h
  | cons b l ih =>
    intro i a h
    rcases List.mem_cons.mp h with h | h
    · obtain ⟨rfl, rfl⟩ : i = n ∧ a = b := by
        simpa [Prod.ext_iff] using h
      refine ⟨Nat.le_refl _, by simp, by simp⟩
    · rcases ih (n := n + 1) h with ⟨h1, h2, h3⟩
      refine ⟨Nat.le_of_succ_le h1, ?_, ?_⟩
      · have hi : i - n = (i - (n + 1)) + 1 := by omega
        simpa [hi] using Nat.succ_lt_succ h2
      · have hi : i - n = (i - (n + 1)) + 1 := by omega
        rw [hi]
        simpa using h3

theorem enumFrom_pairwise : ∀ (n : Nat) (l : List α),
    (enumFrom n l).Pairwise (fun p q => p.1 < q.1) := by
  intro n l
  induction l generalizing n with
  | nil => exact List.Pairwise.nil
  | cons a l ih =>
    refine List.pairwise_cons.mpr ⟨?_, ih (n + 1)⟩
    intro q hq
    have := (mem_enumFrom a (n := n + 1) (i := q.1) (a := q.2)
      (by simpa using hq)).1
    omega

theorem length_enumFrom : ∀ (n : Nat) (l : List α), (enumFrom n l).length = l.length := by
  intro n l
  induction l generalizing n with
  | nil => rfl
  | cons a l ih => simp [enumFrom, ih]

/-- Membership of `enumFrom 0`: the recorded index addresses the element. -/
theorem mem_enumFrom_zero (d : α) {l : List α} {i : Nat} {a : α}
    (h : (i, a) ∈ enumFrom 0 l) : i < l.length ∧ l.getD i d = a := by
  rcases mem_enumFrom d h with ⟨_, h2, h3⟩
  exact ⟨h2, h3⟩

/-! ### Lemmas about association-list lookup -/

theorem lookup_eq_some_of_mem {l : List (String × α)} {k : String} {v : α}
    (hnd : (l.map Prod.fst).Nodup) (h : (k, v) ∈ l) : l.lookup k = some v := by
  induction l with
  | nil => simp at h
  | cons p l ih =>
    obtain ⟨k', v'⟩ := p
    rw [List.map_cons] at hnd
    rcases List.mem_cons.mp h with h | h
    · rw [Prod.mk.injEq] at h
      obtain ⟨rfl, rfl⟩ := h
      simp [List.lookup]
    · have hk : k ≠ k' := by
        intro hkp
        refine (List.nodup_cons.mp hnd).1 ?_
        exact List.mem_map.mpr ⟨(k, v), h, by simp [hkp]⟩
      have hbeq : (k == k') = false := by simpa using hk
      simp only [List.lookup, hbeq]
      exact ih (List.nodup_cons.mp hnd).2 h

theorem mem_keys_of_lookup_eq_some {l : List (String × α)} {k : String} {v : α}
    (h : l.lookup k = some v) : k ∈ l.map Prod.fst := by
  induction l with
  | nil => simp [List.lookup] at h
  | cons p l ih =>
    obtain ⟨k', v'⟩ := p
    by_cases hk : (k == k') = true
    · simp [beq_iff_eq.mp hk]
    · rw [Bool.not_eq_true] at hk
      simp only [List.lookup, hk] at h
      exact List.mem_cons_of_mem _ (ih h)

theorem lookup_eq_some_of_mem_keys {l : List (String × α)} {k : String}
    (h : k ∈ l.map Prod.fst) : ∃ v, l.lookup k = some v := by
  induction l with
  | nil => simp at h
  | cons p l ih =>
    obtain ⟨k', v'⟩ := p
    by_cases hk : (k == k') = true
    · exact ⟨v', by simp [List.lookup, hk]⟩
    · rw [List.map_cons] at h
      rw [Bool.not_eq_true] at hk
      rcases List.mem_cons.mp h with h' | h'
      · exact absurd (beq_iff_eq.mpr h') (by simp [hk])
      · rcases ih h' with ⟨v, hv⟩
        refine ⟨v, ?_⟩
        simpa only [List.lookup, hk] using hv

theorem mem_foldl_filter {pp : PrefMap} {p : String} :
    ∀ (rest : List String) (acc : List String),
      p ∈ rest.foldl (fun common netid =>
          common.filter (fun q => decide (q ∈ memberProjects pp netid))) acc ↔
        p ∈ acc ∧ ∀ n ∈ rest, p ∈ memberProjects pp n := by
  intro rest
  induction rest with
  | nil => intro acc; simp
  | cons n rest ih =>
    intro acc
    rw [List.foldl_cons, ih]
    simp only [List.mem_filter, decide_eq_true_eq, List.mem_cons]
    constructor
    · rintro ⟨⟨hacc, hn⟩, hrest⟩
      exact ⟨hacc, by rintro m (rfl | hm); exacts [hn, hrest m hm]⟩
    · rintro ⟨hacc, hall⟩
      exact ⟨⟨hacc, hall n (Or.inl rfl)⟩, fun m hm => hall m (Or.inr hm)⟩

theorem mem_common_projects_list {pp : PrefMap} {t0 : String} {rest : List String}
    {p : String} :
    p ∈ common_projects_list pp t0 rest ↔
      p ∈ memberProjects pp t0 ∧ ∀ n ∈ rest, p ∈ memberProjects pp n := by
  unfold common_projects_list
  rw [mem_foldl_filter]
  simp

theorem nodup_foldl_filter {pp : PrefMap} :
    ∀ (rest : List String) (acc : List String), acc.Nodup →
      (rest.foldl (fun common netid =>
        common.filter (fun q => decide (q ∈ memberProjects pp netid))) acc).Nodup := by
  intro rest
  induction rest with
  | nil => intro acc h; simpa using h
  | cons n rest ih =>
    intro acc h
    rw [List.foldl_cons]
    exact ih _ (h.filter _)

theorem nodup_common_projects_list (pp : PrefMap) (t0 : String) (rest : List String) :
    (common_projects_list pp t0 rest).Nodup :=
  nodup_foldl_filter rest _ (List.nodup_dedup _)

theorem hasCommonProject_iff {pp : PrefMap} {t0 : String} {rest : List String} :
    hasCommonProject pp (t0 :: rest) ↔ ∃ p, p ∈ common_projects_list pp t0 rest := by
  unfold hasCommonProject
  constructor
  · rintro ⟨p, hp⟩
    exact ⟨p, mem_common_projects_list.mpr
      ⟨hp t0 (List.mem_cons.mpr (Or.inl rfl)),
       fun n hn => hp n (List.mem_cons.mpr (Or.inr hn))⟩⟩
  · rintro ⟨p, hp⟩
    rcases mem_common_projects_list.mp hp with ⟨h0, hrest⟩
    refine ⟨p, ?_⟩
    rintro m hm
    rcases List.mem_cons.mp hm with rfl | hm
    · exact h0
    · exact hrest m hm

/-! ### Lemmas about `calculate_team_project_prefs` -/

theorem calc_nil (pp : PrefMap) : calculate_team_project_prefs [] pp = [] := rfl

theorem calc_cons (pp : PrefMap) (t0 : String) (rest : List String) :
    calculate_team_project_prefs (t0 :: rest) pp =
      sortBy scoreLe ((common_projects_list pp t0 rest).map (fun project =>
        (project, ((t0 :: rest).map (rank pp project)).sum,
          (t0 :: rest).map (rank pp project)))) := rfl

theorem mem_calc {pp : PrefMap} {t0 : String} {rest : List String}
    {x : String × Int × List Int} :
    x ∈ calculate_team_project_prefs (t0 :: rest) pp ↔
      ∃ proj ∈ common_projects_list pp t0 rest,
        x = (proj, ((t0 :: rest).map (rank pp proj)).sum,
          (t0 :: rest).map (rank pp proj)) := by
  rw [calc_cons, mem_sortBy, List.mem_map]
  constructor
  · rintro ⟨proj, hmem, rfl⟩
    exact ⟨proj, hmem, rfl⟩
  · rintro ⟨proj, hmem, rfl⟩
    exact ⟨proj, hmem, rfl⟩

theorem length_calc (pp : PrefMap) (t0 : String) (rest : List String) :
    (calculate_team_project_prefs (t0 :: rest) pp).length =
      (common_projects_list pp t0 rest).length := by
  rw [calc_cons, length_sortBy, List.length_map]

theorem calc_pos_iff {pp : PrefMap} {t0 : String} {rest : List String} :
    0 < (calculate_team_project_prefs (t0 :: rest) pp).length ↔
      hasCommonProject pp (t0 :: rest) := by
  rw [length_calc, hasCommonProject_iff]
  cases h : common_projects_list pp t0 rest with
  | nil => simp [h]
  | cons a l => simp [h]

/-- A positive compatibility check always certifies a common project. -/
theorem calc_pos_hasCommon {pp : PrefMap} {l : List String}
    (h : 0 < (calculate_team_project_prefs l pp).length) :
    hasCommonProject pp l := by
  cases l with
  | nil => simp [calc_nil] at h
  | cons t0 rest => exact calc_pos_iff.mp h

theorem scoreLe_trans : ∀ a b c, scoreLe a b = true → scoreLe b c = true →
    scoreLe a c = true := by
  intro a b c hab hbc
  simp only [scoreLe, decide_eq_true_eq] at hab hbc ⊢
  omega

theorem scoreLe_total : ∀ a b, scoreLe a b = true ∨ scoreLe b a = true := by
  intro a b
  simp only [scoreLe, decide_eq_true_eq]
  omega

/-- The head of the non-empty result of `calculate_team_project_prefs` is a
common project whose aggregate score is minimal among all common projects. -/
theorem calc_head_spec {pp : PrefMap} {t0 : String} {rest : List String}
    {x : String × Int × List Int} {xs : List (String × Int × List Int)}
    (h : calculate_team_project_prefs (t0 :: rest) pp = x :: xs) :
    (x.1 ∈ common_projects_list pp t0 rest ∧
      x.2.2 = (t0 :: rest).map (rank pp x.1) ∧
      x.2.1 = ((t0 :: rest).map (rank pp x.1)).sum) ∧
    ∀ proj ∈ common_projects_list pp t0 rest,
      x.2.1 ≤ ((t0 :: rest).map (rank pp proj)).sum := by
  have hx : x ∈ calculate_team_project_prefs (t0 :: rest) pp := by
    rw [h]; exact List.mem_cons.mpr (Or.inl rfl)
  rcases mem_calc.mp hx with ⟨proj, hmem, hshape⟩
  constructor
  · rw [hshape]
    exact ⟨hmem, rfl, rfl⟩
  · intro proj' hmem'
    have hmember : (proj', ((t0 :: rest).map (rank pp proj')).sum,
        (t0 :: rest).map (rank pp proj')) ∈
        (common_projects_list pp t0 rest).map (fun project =>
          (project, ((t0 :: rest).map (rank pp project)).sum,
            (t0 :: rest).map (rank pp project))) :=
      List.mem_map.mpr ⟨proj', hmem', rfl⟩
    have hle := sortBy_head_min scoreLe_trans scoreLe_total
      (by rw [← calc_cons pp t0 rest]; exact h) _ hmember
    simpa [scoreLe] using hle

/-! ### The checked variant never fails (claim C9) -/

theorem mapM_option_eq_some {α β : Type} {l : List α} {f : α → Option β} {g : α → β}
    (h : ∀ x ∈ l, f x = some (g x)) : l.mapM f = some (l.map g) := by
  induction l with
  | nil => rfl
  | cons a l ih =>
    rw [List.mapM_cons, h a (List.mem_cons.mpr (Or.inl rfl)),
      ih (fun x hx => h x (List.mem_cons.mpr (Or.inr hx)))]
    rfl

theorem lookup_bind_eq_some_rank {pp : PrefMap} {netid proj : String}
    (h : proj ∈ memberProjects pp netid) :
    (pp.lookup netid).bind (fun d => d.lookup proj) = some (rank pp proj netid) := by
  unfold memberProjects at h
  cases hl : pp.lookup netid with
  | none => rw [hl] at h; simp at h
  | some d =>
    rw [hl] at h
    simp only [Option.getD_some] at h
    rcases lookup_eq_some_of_mem_keys h with ⟨v, hv⟩
    simp [rank, hl, hv]

theorem toFinset_eq_of_perm {l l' : List String} (h : List.Perm l l') :
    l.toFinset = l'.toFinset :=
  Finset.ext fun x => by simp [List.mem_toFinset, h.mem_iff]

/-- `p` is common exactly when every member of the (non-empty) team lists it. -/
theorem mem_common_iff_all {pp : PrefMap} {t0 : String} {rest : List String}
    {p : String} :
    p ∈ common_projects_list pp t0 rest ↔ ∀ m ∈ t0 :: rest, p ∈ memberProjects pp m := by
  rw [mem_common_projects_list]
  constructor
  · rintro ⟨h0, hrest⟩ m hm
    rcases List.mem_cons.mp hm with rfl | hm
    · exact h0
    · exact hrest m hm
  · intro h
    exact ⟨h t0 (List.mem_cons.mpr (Or.inl rfl)),
      fun n hn => h n (List.mem_cons.mpr (Or.inr hn))⟩

/-- The length of the result of `calculate_team_project_prefs` depends only on
the set of team members. -/
theorem calc_length_mem_invariant {pp : PrefMap} {l1 l2 : List String}
    (h : ∀ x, x ∈ l1 ↔ x ∈ l2) :
    (calculate_team_project_prefs l1 pp).length =
      (calculate_team_project_prefs l2 pp).length := by
  cases l1 with
  | nil =>
    cases l2 with
    | nil => rfl
    | cons c cs => exact absurd ((h c).mpr (List.mem_cons.mpr (Or.inl rfl))) (by simp)
  | cons a as =>
    cases l2 with
    | nil => exact absurd ((h a).mp (List.mem_cons.mpr (Or.inl rfl))) (by simp)
    | cons c cs =>
      rw [length_calc, length_calc]
      have hfe : (common_projects_list pp a as).toFinset =
          (common_projects_list pp c cs).toFinset := by
        ext p
        simp only [List.mem_toFinset, mem_common_iff_all]
        constructor
        · intro hp m hm
          exact hp m ((h m).mpr hm)
        · intro hp m hm
          exact hp m ((h m).mp hm)
      have h1 := List.toFinset_card_of_nodup (nodup_common_projects_list pp a as)
      have h2 := List.toFinset_card_of_nodup (nodup_common_projects_list pp c cs)
      rw [← h1, ← h2, hfe]

/-! ### Claim theorems: C9, C4, C7, C2, C6 -/

/-- Claim C9: the unguarded double lookup `project_prefs[netid][project]` in
`calculate_team_project_prefs` never fails: the checked embedding, in which
both subscripts may raise, returns exactly the total embedding's result on
every input, so the error branch is unreachable and the function is total. -/
theorem C9_unguarded_lookup_never_fails (team_members : List String)
    (project_prefs : PrefMap) :
    calculate_team_project_prefs_checked team_members project_prefs =
      some (calculate_team_project_prefs team_members project_prefs) := by
  cases team_members with
  | nil => rfl
  | cons t0 rest =>
    show ((common_projects_list project_prefs t0 rest).mapM (fun project =>
      ((t0 :: rest).mapM (fun netid =>
        (project_prefs.lookup netid).bind (fun d => d.lookup project))).map
        (fun rankings => (project, rankings.sum, rankings)))).map
      (sortBy scoreLe) = _
    rw [mapM_option_eq_some (g := fun project =>
        (project, ((t0 :: rest).map (rank project_prefs project)).sum,
          (t0 :: rest).map (rank project_prefs project)))]
    · rfl
    · intro proj hproj
      rw [mapM_option_eq_some (g := rank project_prefs proj)]
      · rfl
      · intro netid hnetid
        exact lookup_bind_eq_some_rank (mem_common_iff_all.mp hproj netid hnetid)

/-- The filtered candidate set of `validate_subteam` as a finset. -/
theorem filter_ne_toFinset (members : List String) (M : String) :
    (members.dedup.filter (fun x => decide (x ≠ M))).toFinset =
      members.toFinset.erase M := by
  ext x
  simp only [List.mem_toFinset, List.mem_filter, List.mem_dedup, decide_eq_true_eq,
    Finset.mem_erase]
  tauto

/-- `validate_subteam` holds exactly when every member's request list is, as a
set, the other members. -/
theorem validate_subteam_iff {members : List String} {rm : ReqMap} :
    validate_subteam members rm = true ↔
      ∀ M ∈ members, ((rm.lookup M).getD []).toFinset = members.toFinset.erase M := by
  unfold validate_subteam
  rw [List.all_eq_true]
  constructor
  · intro h M hM
    have := listSetEq_iff.mp (h M (List.mem_dedup.mpr hM))
    rwa [filter_ne_toFinset] at this
  · intro h M hM
    refine listSetEq_iff.mpr ?_
    rw [filter_ne_toFinset]
    exact h M (List.mem_dedup.mp hM)

/-- Claim C4: `validate_subteam` accepts exactly the candidate sets in which
every member's request set equals the other members; it is invariant under
reordering of the candidate list; and any candidate set containing a
one-directional request is rejected. -/
theorem C4_validate_subteam_correct (members : List String) (rm : ReqMap) :
    (validate_subteam members rm = true ↔
      ∀ M ∈ members, ((rm.lookup M).getD []).toFinset = members.toFinset.erase M)
    ∧ (∀ members' : List String, List.Perm members members' →
        validate_subteam members rm = validate_subteam members' rm)
    ∧ ((∃ M ∈ members, ∃ N ∈ members,
          N ∈ (rm.lookup M).getD [] ∧ M ∉ (rm.lookup N).getD []) →
        validate_subteam members rm = false) := by
  refine ⟨validate_subteam_iff, ?_, ?_⟩
  · intro members' hperm
    have hiff : validate_subteam members rm = true ↔
        validate_subteam members' rm = true := by
      rw [validate_subteam_iff, validate_subteam_iff]
      constructor
      · intro h M hM
        rw [← toFinset_eq_of_perm hperm]
        exact h M (hperm.mem_iff.mpr hM)
      · intro h M hM
        rw [toFinset_eq_of_perm hperm]
        exact h M (hperm.mem_iff.mp hM)
    cases hv : validate_subteam members rm <;> cases hv' : validate_subteam members' rm <;>
      simp_all
  · rintro ⟨M, hM, N, hN, hNM, hMN⟩
    by_contra hfalse
    rw [Bool.not_eq_false] at hfalse
    have hchar := validate_subteam_iff.mp hfalse
    have hMN' : M ≠ N := by
      rintro rfl
      exact hMN hNM
    have : M ∈ ((rm.lookup N).getD []).toFinset := by
      rw [hchar N hN]
      exact Finset.mem_erase.mpr ⟨hMN', List.mem_toFinset.mpr hM⟩
    exact hMN (List.mem_toFinset.mp this)

/-- Witness for C4: the asymmetric pair of §8 scenario 2 is rejected. -/
theorem C4_witness :
    validate_subteam ["c", "d"] [("c", ["d"]), ("d", [])] = false :=
  (C4_validate_subteam_correct ["c", "d"] [("c", ["d"]), ("d", [])]).2.2
    ⟨"c", by decide, "d", by decide, by decide, by decide⟩

/-- Claim C7: `check_compatibility` returns true exactly when some project is
common to all members of the union of the two groups (stated for non-empty
unions; on two empty groups the code returns false), and it is symmetric in
its two subteam arguments. -/
theorem C7_check_compatibility_correct (subteam1 subteam2 : Team)
    (project_prefs : PrefMap) :
    (listUnion subteam1.members subteam2.members ≠ [] →
      (check_compatibility subteam1 subteam2 project_prefs = true ↔
        ∃ p, ∀ m, m ∈ subteam1.members ∨ m ∈ subteam2.members →
          p ∈ memberProjects project_prefs m))
    ∧ check_compatibility subteam1 subteam2 project_prefs =
        check_compatibility subteam2 subteam1 project_prefs := by
  constructor
  · intro hne
    unfold check_compatibility check_compat_members
    rw [decide_eq_true_eq]
    cases hu : listUnion subteam1.members subteam2.members with
    | nil => exact absurd hu hne
    | cons t0 rest =>
      rw [calc_pos_iff]
      unfold hasCommonProject
      constructor
      · rintro ⟨p, hp⟩
        refine ⟨p, fun m hm => hp m ?_⟩
        rw [← hu]
        exact mem_listUnion.mpr hm
      · rintro ⟨p, hp⟩
        refine ⟨p, fun m hm => hp m ?_⟩
        rw [← hu] at hm
        exact mem_listUnion.mp hm
  · unfold check_compatibility check_compat_members
    have hlen : (calculate_team_project_prefs
          (listUnion subteam1.members subteam2.members) project_prefs).length =
        (calculate_team_project_prefs
          (listUnion subteam2.members subteam1.members) project_prefs).length :=
      calc_length_mem_invariant
        (fun x => by rw [mem_listUnion, mem_listUnion]; tauto)
    rw [hlen]

/-- Witness for C7: a concrete compatible pairing, produced through the
equivalence of the claim theorem. -/
theorem C7_witness :
    ∃ p, ∀ m, m ∈ ["a"] ∨ m ∈ ["b"] →
      p ∈ memberProjects [("a", [("P", 1)]), ("b", [("P", 2)])] m :=
  ((C7_check_compatibility_correct ⟨["a"], 1⟩ ⟨["b"], 1⟩
      [("a", [("P", 1)]), ("b", [("P", 2)])]).1 (by decide)).mp (by decide)

theorem filterMap_eq_map_filter {α β : Type} (f : α → Option β) (g : α → β)
    (c : α → Bool) (h : ∀ a, f a = if c a then some (g a) else none) :
    ∀ l : List α, l.filterMap f = (l.filter c).map g := by
  intro l
  induction l with
  | nil => rfl
  | cons a l ih =>
    rw [List.filterMap_cons, List.filter_cons, h a]
    cases hc : c a
    · simp only [hc, Bool.false_eq_true, if_false, ih]
    · simp only [hc, if_true, List.map_cons, ih]

/-- Claim C2, counterexample: a team with an empty common-project intersection
is skipped, and processing continues normally with the remaining teams; no
error is surfaced to the caller.  Team `a, b` below has no common project, yet
the call returns normally and still assigns the later team `c`. -/
theorem C2_counterexample :
    calculate_team_project_prefs ["a", "b"]
      [("a", [("P", 1)]), ("b", [("Q", 1)]), ("c", [("R", 2)])] = [] ∧
    assign_projects_to_complete_subteams [⟨["a", "b"], 2⟩, ⟨["c"], 1⟩]
      [("a", [("P", 1)]), ("b", [("Q", 1)]), ("c", [("R", 2)])] =
      [⟨["c"], "R", 2, [2]⟩] := by
  decide

/-- Claim C2 (amended): both assignment functions skip every team whose
common-project intersection is empty — the team is dropped from the returned
assignments (after a printed diagnostic naming its members) and the loop
continues with the remaining teams; no error aborts the run. -/
theorem C2_amended_empty_intersection_skipped (complete_teams : List Team)
    (merged_teams : List MergedTeam) (project_prefs : PrefMap) :
    assign_projects_to_complete_subteams complete_teams project_prefs =
      (complete_teams.filter (fun team =>
        decide (calculate_team_project_prefs team.members project_prefs ≠ []))).map
        (assignOf project_prefs)
    ∧ assign_projects_to_merged_teams merged_teams project_prefs =
      (merged_teams.filter (fun team =>
        decide (calculate_team_project_prefs team.members project_prefs ≠ []))).map
        (mergedAssignOf project_prefs) := by
  constructor
  · refine filterMap_eq_map_filter _ _ _ ?_ complete_teams
    intro team
    cases hcalc : calculate_team_project_prefs team.members project_prefs with
    | nil => simp [assign_team, assignOf, hcalc]
    | cons x xs =>
      obtain ⟨proj, score, rankings⟩ := x
      simp [assign_team, assignOf, hcalc]
  · refine filterMap_eq_map_filter _ _ _ ?_ merged_teams
    intro team
    cases hcalc : calculate_team_project_prefs team.members project_prefs with
    | nil => simp [assign_team, mergedAssignOf, hcalc]
    | cons x xs =>
      obtain ⟨proj, score, rankings⟩ := x
      simp [assign_team, mergedAssignOf, hcalc]

/-- Claim C6: for every team with a non-empty common-project intersection, the
assignment step assigns a project from that intersection, records as aggregate
score the sum of the members' ranks for it, and that score is minimal among
all common projects of the team. -/
theorem C6_assignment_minimality (complete_teams : List Team)
    (project_prefs : PrefMap) (team : Team) (hmem : team ∈ complete_teams)
    (hne : team.members ≠ [])
    (hcommon : hasCommonProject project_prefs team.members) :
    ∃ a : Assignment,
      assign_team project_prefs team.members = some a ∧
      a ∈ assign_projects_to_complete_subteams complete_teams project_prefs ∧
      (∀ m ∈ team.members, a.project ∈ memberProjects project_prefs m) ∧
      a.individual_rankings = team.members.map (rank project_prefs a.project) ∧
      a.aggregate_score = (team.members.map (rank project_prefs a.project)).sum ∧
      ∀ proj, (∀ m ∈ team.members, proj ∈ memberProjects project_prefs m) →
        a.aggregate_score ≤ (team.members.map (rank project_prefs proj)).sum := by
  cases hmembers : team.members with
  | nil => exact absurd hmembers hne
  | cons t0 rest =>
    rw [hmembers] at hcommon
    have hpos : 0 < (calculate_team_project_prefs (t0 :: rest) project_prefs).length :=
      calc_pos_iff.mpr hcommon
    cases hcalc : calculate_team_project_prefs (t0 :: rest) project_prefs with
    | nil => rw [hcalc] at hpos; simp at hpos
    | cons x xs =>
      obtain ⟨xp, xsc, xrk⟩ := x
      obtain ⟨⟨hx1, hx2, hx3⟩, hmin⟩ := calc_head_spec hcalc
      refine ⟨⟨sortedMembers (t0 :: rest), xp, xsc, xrk⟩, ?_, ?_, ?_, ?_, ?_, ?_⟩
      · unfold assign_team
        rw [hcalc]
      · refine List.mem_filterMap.mpr ⟨team, hmem, ?_⟩
        rw [hmembers]
        unfold assign_team
        rw [hcalc]
      · intro m hm
        exact mem_common_iff_all.mp hx1 m hm
      · exact hx2
      · exact hx3
      · intro proj hproj
        exact hmin proj (mem_common_iff_all.mpr hproj)

/-- Witness for C6: §8 scenario 4, a five-member team sharing project `P1` at
ranks 1, 1, 1, 2, 3. -/
theorem C6_witness :
    ∃ a : Assignment,
      assign_team
        [("a", [("P1", 1)]), ("b", [("P1", 1)]), ("c", [("P1", 1)]),
          ("d", [("P1", 2)]), ("e", [("P1", 3)])]
        (Team.members ⟨["a", "b", "c", "d", "e"], 5⟩) = some a ∧
      a ∈ assign_projects_to_complete_subteams [⟨["a", "b", "c", "d", "e"], 5⟩]
        [("a", [("P1", 1)]), ("b", [("P1", 1)]), ("c", [("P1", 1)]),
          ("d", [("P1", 2)]), ("e", [("P1", 3)])] ∧
      (∀ m ∈ Team.members ⟨["a", "b", "c", "d", "e"], 5⟩,
        a.project ∈ memberProjects
          [("a", [("P1", 1)]), ("b", [("P1", 1)]), ("c", [("P1", 1)]),
            ("d", [("P1", 2)]), ("e", [("P1", 3)])] m) ∧
      a.individual_rankings = (Team.members ⟨["a", "b", "c", "d", "e"], 5⟩).map
        (rank [("a", [("P1", 1)]), ("b", [("P1", 1)]), ("c", [("P1", 1)]),
          ("d", [("P1", 2)]), ("e", [("P1", 3)])] a.project) ∧
      a.aggregate_score = ((Team.members ⟨["a", "b", "c", "d", "e"], 5⟩).map
        (rank [("a", [("P1", 1)]), ("b", [("P1", 1)]), ("c", [("P1", 1)]),
          ("d", [("P1", 2)]), ("e", [("P1", 3)])] a.project)).sum ∧
      ∀ proj, (∀ m ∈ Team.members ⟨["a", "b", "c", "d", "e"], 5⟩,
          proj ∈ memberProjects
            [("a", [("P1", 1)]), ("b", [("P1", 1)]), ("c", [("P1", 1)]),
              ("d", [("P1", 2)]), ("e", [("P1", 3)])] m) →
        a.aggregate_score ≤ ((Team.members ⟨["a", "b", "c", "d", "e"], 5⟩).map
          (rank [("a", [("P1", 1)]), ("b", [("P1", 1)]), ("c", [("P1", 1)]),
            ("d", [("P1", 2)]), ("e", [("P1", 3)])] proj)).sum :=
  C6_assignment_minimality [⟨["a", "b", "c", "d", "e"], 5⟩] _
    ⟨["a", "b", "c", "d", "e"], 5⟩ (by decide) (by decide) ⟨"P1", by decide⟩

/-! ### Claim C3: the classifier -/

/-- Bucket-by-bucket characterization of the classification loop. -/
theorem classify_foldl_char (l : List (List String)) (r : ClassifiedTeams) :
    (l.foldl classify_step r).complete_teams =
      r.complete_teams ++
        (l.filter (fun s => decide (5 ≤ s.length ∧ s.length ≤ 6))).map
          (fun s => (⟨s, s.length⟩ : Team)) ∧
    (l.foldl classify_step r).incomplete_subteams.inc1 =
      r.incomplete_subteams.inc1 ++
        (l.filter (fun s => decide (s.length = 1))).map
          (fun s => (⟨s, s.length⟩ : Team)) ∧
    (l.foldl classify_step r).incomplete_subteams.inc2 =
      r.incomplete_subteams.inc2 ++
        (l.filter (fun s => decide (s.length = 2))).map
          (fun s => (⟨s, s.length⟩ : Team)) ∧
    (l.foldl classify_step r).incomplete_subteams.inc3 =
      r.incomplete_subteams.inc3 ++
        (l.filter (fun s => decide (s.length = 3))).map
          (fun s => (⟨s, s.length⟩ : Team)) ∧
    (l.foldl classify_step r).incomplete_subteams.inc4 =
      r.incomplete_subteams.inc4 ++
        (l.filter (fun s => decide (s.length = 4))).map
          (fun s => (⟨s, s.length⟩ : Team)) := by
  induction l generalizing r with
  | nil => simp
  | cons s l ih =>
    rw [List.foldl_cons]
    obtain ⟨ih1, ih2, ih3, ih4, ih5⟩ := ih (classify_step r s)
    by_cases h56 : 5 ≤ s.length ∧ s.length ≤ 6
    · have hstep : classify_step r s =
          { r with complete_teams := r.complete_teams ++ [⟨s, s.length⟩] } := by
        unfold classify_step
        rw [if_pos h56]
      rw [hstep] at ih1 ih2 ih3 ih4 ih5
      have e1 : ¬s.length = 1 := by omega
      have e2 : ¬s.length = 2 := by omega
      have e3 : ¬s.length = 3 := by omega
      have e4 : ¬s.length = 4 := by omega
      refine ⟨?_, ?_, ?_, ?_, ?_⟩ <;>
        simp_all [List.filter_cons]
    · by_cases h14 : 1 ≤ s.length ∧ s.length ≤ 4
      · have hstep : classify_step r s =
            { r with incomplete_subteams :=
                addIncomplete r.incomplete_subteams s.length ⟨s, s.length⟩ } := by
          unfold classify_step
          rw [if_neg h56, if_pos h14]
        rw [hstep] at ih1 ih2 ih3 ih4 ih5
        have hn : s.length = 1 ∨ s.length = 2 ∨ s.length = 3 ∨ s.length = 4 := by omega
        rcases hn with hn | hn | hn | hn <;>
          refine ⟨?_, ?_, ?_, ?_, ?_⟩ <;>
            simp_all [List.filter_cons, addIncomplete]
      · have hstep : classify_step r s = r := by
          unfold classify_step
          rw [if_neg h56, if_neg h14]
        rw [hstep] at ih1 ih2 ih3 ih4 ih5
        have h1 : ¬s.length = 1 := by omega
        have h2 : ¬s.length = 2 := by omega
        have h3 : ¬s.length = 3 := by omega
        have h4 : ¬s.length = 4 := by omega
        refine ⟨?_, ?_, ?_, ?_, ?_⟩ <;>
          simp_all [List.filter_cons]

/-- Full characterization of `classify_subteams`, bucket by bucket. -/
theorem classify_subteams_char (d : SubteamsData) :
    (classify_subteams d).complete_teams =
      (d.complete_subteams.filter (fun s => decide (5 ≤ s.length ∧ s.length ≤ 6))).map
        (fun s => (⟨s, s.length⟩ : Team)) ∧
    (classify_subteams d).incomplete_subteams.inc1 =
      (d.complete_subteams.filter (fun s => decide (s.length = 1))).map
        (fun s => (⟨s, s.length⟩ : Team)) ++
        d.individuals.map (fun individual => (⟨[individual], 1⟩ : Team)) ∧
    (classify_subteams d).incomplete_subteams.inc2 =
      (d.complete_subteams.filter (fun s => decide (s.length = 2))).map
        (fun s => (⟨s, s.length⟩ : Team)) ∧
    (classify_subteams d).incomplete_subteams.inc3 =
      (d.complete_subteams.filter (fun s => decide (s.length = 3))).map
        (fun s => (⟨s, s.length⟩ : Team)) ∧
    (classify_subteams d).incomplete_subteams.inc4 =
      (d.complete_subteams.filter (fun s => decide (s.length = 4))).map
        (fun s => (⟨s, s.length⟩ : Team)) := by
  obtain ⟨h1, h2, h3, h4, h5⟩ :=
    classify_foldl_char d.complete_subteams ⟨[], ⟨[], [], [], []⟩⟩
  unfold classify_subteams
  refine ⟨by simpa using h1, ?_, by simpa using h3, by simpa using h4,
    by simpa using h5⟩
  simpa using congrArg (· ++ d.individuals.map
    (fun individual => (⟨[individual], 1⟩ : Team))) h2

/-- Claim C3, counterexample: on a discovered subteam of 7 students,
`classify_subteams` returns normally (it raises no error), and the subteam
appears in no output bucket at all: every bucket of the result is empty. -/
theorem C3_counterexample :
    classify_subteams ⟨[["a", "b", "c", "d", "e", "f", "g"]], []⟩ =
      ⟨[], ⟨[], [], [], []⟩⟩ := by
  decide

/-- Claim C3 (amended): `classify_subteams` returns normally on every input;
subteams of size 5-6 go to `complete_teams`, subteams of size 1-4 go to
`incompleteBySize[size]`, each individual becomes a singleton in slot 1, and a
subteam whose size lies outside 1-6 is silently dropped: it appears in no
output bucket (no fatal error is raised). -/
theorem C3_amended_classifier_exhaustive_1_to_6 (d : SubteamsData) :
    (classify_subteams d).complete_teams =
      (d.complete_subteams.filter (fun s => decide (5 ≤ s.length ∧ s.length ≤ 6))).map
        (fun s => (⟨s, s.length⟩ : Team)) ∧
    (classify_subteams d).incomplete_subteams.inc1 =
      (d.complete_subteams.filter (fun s => decide (s.length = 1))).map
        (fun s => (⟨s, s.length⟩ : Team)) ++
        d.individuals.map (fun individual => (⟨[individual], 1⟩ : Team)) ∧
    (classify_subteams d).incomplete_subteams.inc2 =
      (d.complete_subteams.filter (fun s => decide (s.length = 2))).map
        (fun s => (⟨s, s.length⟩ : Team)) ∧
    (classify_subteams d).incomplete_subteams.inc3 =
      (d.complete_subteams.filter (fun s => decide (s.length = 3))).map
        (fun s => (⟨s, s.length⟩ : Team)) ∧
    (classify_subteams d).incomplete_subteams.inc4 =
      (d.complete_subteams.filter (fun s => decide (s.length = 4))).map
        (fun s => (⟨s, s.length⟩ : Team)) :=
  classify_subteams_char d

theorem discover_step_inv {rm : ReqMap} {st : List (List String) × List String}
    {p : String × List String} (hp : p ∈ rm) (h : DiscInv rm st) :
    DiscInv rm (discover_step rm st p) := by
  obtain ⟨h1, h2, h3, h4, h5⟩ := h
  unfold discover_step
  split
  · exact ⟨h1, h2, h3, h4, h5⟩
  · split
    · exact ⟨h1, h2, h3, h4, h5⟩
    · rename_i hprefs
      dsimp only
      split
      · rename_i hval
        split
        · rename_i hfresh
          rw [List.all_eq_true] at hfresh
          refine ⟨?_, ?_, ?_, ?_, ?_⟩
          · intro x hx
            rcases mem_listUnion.mp hx with hx | hx
            · rcases h1 x hx with ⟨T, hT, hxT⟩
              exact ⟨T, List.mem_append_left _ hT, hxT⟩
            · exact ⟨(p.1 :: p.2).dedup, List.mem_append_right _ (by simp), hx⟩
          · intro T hT x hx
            rcases List.mem_append.mp hT with hT | hT
            · exact mem_listUnion.mpr (Or.inl (h2 T hT x hx))
            · rw [List.mem_singleton.mp hT] at hx
              exact mem_listUnion.mpr (Or.inr hx)
          · rw [List.pairwise_append]
            refine ⟨h3, List.pairwise_singleton _ _, ?_⟩
            intro T hT U hU x hxT
            rw [List.mem_singleton.mp hU]
            intro hxU
            exact decide_eq_true_eq.mp (hfresh x hxU) (h2 T hT x hxT)
          · exact listUnion_nodup h4 (List.nodup_dedup _)
          · intro T hT
            rcases List.mem_append.mp hT with hT | hT
            · exact h5 T hT
            · rw [List.mem_singleton.mp hT]
              exact ⟨List.nodup_dedup _, hval, p, hp, hprefs, rfl⟩
        · exact ⟨h1, h2, h3, h4, h5⟩
      · exact ⟨h1, h2, h3, h4, h5⟩

theorem discover_foldl_inv {rm : ReqMap} :
    ∀ (L : List (String × List String)) (st : List (List String) × List String),
      (∀ p ∈ L, p ∈ rm) → DiscInv rm st →
        DiscInv rm (L.foldl (discover_step rm) st) := by
  intro L
  induction L with
  | nil => intro st _ h; exact h
  | cons p L ih =>
    intro st hL h
    rw [List.foldl_cons]
    exact ih _ (fun q hq => hL q (List.mem_cons.mpr (Or.inr hq)))
      (discover_step_inv (hL p (List.mem_cons.mpr (Or.inl rfl))) h)

theorem discover_state_inv (rm : ReqMap) : DiscInv rm (discover_state rm) := by
  refine discover_foldl_inv _ _ (fun p hp => mem_sortBy.mp hp) ?_
  refine ⟨?_, ?_, ?_, ?_, ?_⟩ <;> simp [List.Pairwise.nil]

/-- Every member of a committed subteam is a key of the request map. -/
theorem committed_subset_keys {rm : ReqMap} {T : List String}
    (hval : validate_subteam T rm = true)
    (horigin : ∃ q ∈ rm, q.2 ≠ [] ∧ T = (q.1 :: q.2).dedup) :
    ∀ m ∈ T, m ∈ rm.map Prod.fst := by
  obtain ⟨q, hq, _, hTeq⟩ := horigin
  intro m hm
  cases hl : rm.lookup m with
  | some v => exact mem_keys_of_lookup_eq_some hl
  | none =>
    have hchar := validate_subteam_iff.mp hval m hm
    rw [hl] at hchar
    have hsub : ∀ x ∈ T, x = m := by
      intro x hx
      by_contra hxm
      have : x ∈ T.toFinset.erase m :=
        Finset.mem_erase.mpr ⟨hxm, List.mem_toFinset.mpr hx⟩
      rw [← hchar] at this
      simp at this
    have hq1 : q.1 ∈ T := by
      rw [hTeq]
      exact List.mem_dedup.mpr (List.mem_cons.mpr (Or.inl rfl))
    rw [← hsub q.1 hq1]
    exact List.mem_map.mpr ⟨q, hq, rfl⟩

/-- Claim C5: the partition returned by `identify_subteams` covers every
student in the request map's key set exactly once: committed subteams consist
of keys and are pairwise disjoint and duplicate-free, the individuals are
duplicate-free keys outside every committed subteam, and every key is in a
committed subteam or among the individuals. -/
theorem C5_discoverer_coverage (rm : ReqMap) :
    (∀ T ∈ (identify_subteams rm).complete_subteams, T.Nodup ∧
      ∀ m ∈ T, m ∈ rm.map Prod.fst) ∧
    (identify_subteams rm).complete_subteams.Pairwise (fun T U => ∀ x ∈ T, x ∉ U) ∧
    (identify_subteams rm).individuals.Nodup ∧
    (∀ x ∈ (identify_subteams rm).individuals, x ∈ rm.map Prod.fst ∧
      ∀ T ∈ (identify_subteams rm).complete_subteams, x ∉ T) ∧
    (∀ x, x ∈ rm.map Prod.fst →
      x ∈ (identify_subteams rm).individuals ∨
      ∃ T ∈ (identify_subteams rm).complete_subteams, x ∈ T) := by
  obtain ⟨h1, h2, h3, h4, h5⟩ := discover_state_inv rm
  have hteams : (identify_subteams rm).complete_subteams = (discover_state rm).1 := rfl
  have hindiv : (identify_subteams rm).individuals =
      ((rm.map Prod.fst).dedup).filter
        (fun x => decide (x ∉ (discover_state rm).2)) := rfl
  refine ⟨?_, ?_, ?_, ?_, ?_⟩
  · intro T hT
    rw [hteams] at hT
    obtain ⟨hnd, hval, horigin⟩ := h5 T hT
    exact ⟨hnd, committed_subset_keys hval horigin⟩
  · rw [hteams]; exact h3
  · rw [hindiv]
    exact (List.nodup_dedup _).filter _
  · intro x hx
    rw [hindiv] at hx
    rcases List.mem_filter.mp hx with ⟨hxk, hdec⟩
    refine ⟨List.mem_dedup.mp hxk, ?_⟩
    intro T hT hxT
    rw [hteams] at hT
    exact decide_eq_true_eq.mp hdec (h2 T hT x hxT)
  · intro x hx
    by_cases hassigned : x ∈ (discover_state rm).2
    · rcases h1 x hassigned with ⟨T, hT, hxT⟩
      exact Or.inr ⟨T, by rw [hteams]; exact hT, hxT⟩
    · refine Or.inl ?_
      rw [hindiv]
      exact List.mem_filter.mpr ⟨List.mem_dedup.mpr hx, decide_eq_true_eq.mpr hassigned⟩

/-- Witness for C5: the coverage statement at §8 scenarios 1 and 2 combined. -/
theorem C5_witness :
    (∀ T ∈ (identify_subteams
        [("a", ["b"]), ("b", ["a"]), ("c", ["d"]), ("d", [])]).complete_subteams,
      T.Nodup ∧ ∀ m ∈ T,
        m ∈ [("a", ["b"]), ("b", ["a"]), ("c", ["d"]), ("d", [])].map Prod.fst) ∧
    (identify_subteams
      [("a", ["b"]), ("b", ["a"]), ("c", ["d"]), ("d", [])]).complete_subteams.Pairwise
      (fun T U => ∀ x ∈ T, x ∉ U) ∧
    (identify_subteams
      [("a", ["b"]), ("b", ["a"]), ("c", ["d"]), ("d", [])]).individuals.Nodup ∧
    (∀ x ∈ (identify_subteams
        [("a", ["b"]), ("b", ["a"]), ("c", ["d"]), ("d", [])]).individuals,
      x ∈ [("a", ["b"]), ("b", ["a"]), ("c", ["d"]), ("d", [])].map Prod.fst ∧
      ∀ T ∈ (identify_subteams
          [("a", ["b"]), ("b", ["a"]), ("c", ["d"]), ("d", [])]).complete_subteams,
        x ∉ T) ∧
    (∀ x, x ∈ [("a", ["b"]), ("b", ["a"]), ("c", ["d"]), ("d", [])].map Prod.fst →
      x ∈ (identify_subteams
        [("a", ["b"]), ("b", ["a"]), ("c", ["d"]), ("d", [])]).individuals ∨
      ∃ T ∈ (identify_subteams
          [("a", ["b"]), ("b", ["a"]), ("c", ["d"]), ("d", [])]).complete_subteams,
        x ∈ T) :=
  C5_discoverer_coverage [("a", ["b"]), ("b", ["a"]), ("c", ["d"]), ("d", [])]

/-- Claim C8: with `RequestMap[C] = [D]` and `RequestMap[D] = []` (and
duplicate-free dict keys), neither C nor D is committed to any complete
subteam: both end up among the individuals and hence become size-1 subteams
after classification. -/
theorem C8_asymmetric_request_both_individuals (rm : ReqMap) (C D : String)
    (hkeys : (rm.map Prod.fst).Nodup) (hC : rm.lookup C = some [D])
    (hD : rm.lookup D = some []) (hCD : C ≠ D) :
    (∀ T ∈ (identify_subteams rm).complete_subteams, C ∉ T ∧ D ∉ T) ∧
    C ∈ (identify_subteams rm).individuals ∧
    D ∈ (identify_subteams rm).individuals ∧
    (⟨[C], 1⟩ : Team) ∈
      (classify_subteams (identify_subteams rm)).incomplete_subteams.inc1 ∧
    (⟨[D], 1⟩ : Team) ∈
      (classify_subteams (identify_subteams rm)).incomplete_subteams.inc1 := by
  obtain ⟨h1, h2, h3, h4, h5⟩ := discover_state_inv rm
  have hteams : (identify_subteams rm).complete_subteams = (discover_state rm).1 := rfl
  have hindiv : (identify_subteams rm).individuals =
      ((rm.map Prod.fst).dedup).filter
        (fun x => decide (x ∉ (discover_state rm).2)) := rfl
  have hCnotin : ∀ T ∈ (discover_state rm).1, C ∉ T := by
    intro T hT hCT
    obtain ⟨hnd, hval, _⟩ := h5 T hT
    have hcharC := validate_subteam_iff.mp hval C hCT
    rw [hC] at hcharC
    have hDT : D ∈ T := by
      have : D ∈ T.toFinset.erase C := by
        rw [← hcharC]; simp
      exact List.mem_toFinset.mp (Finset.mem_erase.mp this).2
    have hcharD := validate_subteam_iff.mp hval D hDT
    rw [hD] at hcharD
    have : C ∈ T.toFinset.erase D :=
      Finset.mem_erase.mpr ⟨hCD, List.mem_toFinset.mpr hCT⟩
    rw [← hcharD] at this
    simp at this
  have hDnotin : ∀ T ∈ (discover_state rm).1, D ∉ T := by
    intro T hT hDT
    obtain ⟨hnd, hval, q, hq, hq2, hTeq⟩ := h5 T hT
    have hcharD := validate_subteam_iff.mp hval D hDT
    rw [hD] at hcharD
    have hsub : ∀ x ∈ T, x = D := by
      intro x hx
      by_contra hxD
      have : x ∈ T.toFinset.erase D :=
        Finset.mem_erase.mpr ⟨hxD, List.mem_toFinset.mpr hx⟩
      rw [← hcharD] at this
      simp at this
    have hq1 : q.1 ∈ T := by
      rw [hTeq]
      exact List.mem_dedup.mpr (List.mem_cons.mpr (Or.inl rfl))
    have hq1D : q.1 = D := hsub q.1 hq1
    have hlook : rm.lookup q.1 = some q.2 := lookup_eq_some_of_mem hkeys hq
    rw [hq1D, hD] at hlook
    exact hq2 (by injection hlook with h; exact h.symm)
  have hCkey : C ∈ rm.map Prod.fst := mem_keys_of_lookup_eq_some hC
  have hDkey : D ∈ rm.map Prod.fst := mem_keys_of_lookup_eq_some hD
  have hCun : C ∉ (discover_state rm).2 := by
    intro hx
    rcases h1 C hx with ⟨T, hT, hCT⟩
    exact hCnotin T hT hCT
  have hDun : D ∉ (discover_state rm).2 := by
    intro hx
    rcases h1 D hx with ⟨T, hT, hDT⟩
    exact hDnotin T hT hDT
  have hCindiv : C ∈ (identify_subteams rm).individuals := by
    rw [hindiv]
    exact List.mem_filter.mpr ⟨List.mem_dedup.mpr hCkey, decide_eq_true_eq.mpr hCun⟩
  have hDindiv : D ∈ (identify_subteams rm).individuals := by
    rw [hindiv]
    exact List.mem_filter.mpr ⟨List.mem_dedup.mpr hDkey, decide_eq_true_eq.mpr hDun⟩
  have hinc1 := (classify_subteams_char (identify_subteams rm)).2.1
  refine ⟨?_, hCindiv, hDindiv, ?_, ?_⟩
  · intro T hT
    rw [hteams] at hT
    exact ⟨hCnotin T hT, hDnotin T hT⟩
  · rw [hinc1]
    exact List.mem_append_right _ (List.mem_map.mpr ⟨C, hCindiv, rfl⟩)
  · rw [hinc1]
    exact List.mem_append_right _ (List.mem_map.mpr ⟨D, hDindiv, rfl⟩)

/-- Witness for C8: the concrete request map of §8 scenario 2. -/
theorem C8_witness :
    (∀ T ∈ (identify_subteams [("c", ["d"]), ("d", [])]).complete_subteams,
      "c" ∉ T ∧ "d" ∉ T) ∧
    "c" ∈ (identify_subteams [("c", ["d"]), ("d", [])]).individuals ∧
    "d" ∈ (identify_subteams [("c", ["d"]), ("d", [])]).individuals ∧
    (⟨["c"], 1⟩ : Team) ∈
      (classify_subteams
        (identify_subteams [("c", ["d"]), ("d", [])])).incomplete_subteams.inc1 ∧
    (⟨["d"], 1⟩ : Team) ∈
      (classify_subteams
        (identify_subteams [("c", ["d"]), ("d", [])])).incomplete_subteams.inc1 :=
  C8_asymmetric_request_both_individuals [("c", ["d"]), ("d", [])] "c" "d"
    (by decide) (by decide) (by decide) (by decide)

theorem is_used_false_iff {used : List (Nat × Nat)} {k : Nat × Nat} :
    is_used used k = false ↔ k ∉ used := by
  simp [is_used]

theorem mem_markUsed {used : List (Nat × Nat)} {k k' : Nat × Nat} :
    k' ∈ markUsed used k ↔ k' ∈ used ∨ k' = k := by
  unfold markUsed
  split
  · rename_i hmem
    constructor
    · exact Or.inl
    · rintro (h | rfl)
      · exact h
      · exact hmem
  · simp

theorem findFrom_some {p : Nat → Team → Bool} :
    ∀ {n : Nat} {l : List Team} {j : Nat} {t : Team},
      findFrom p n l = some (j, t) →
      n ≤ j ∧ j - n < l.length ∧ l.getD (j - n) ⟨[], 0⟩ = t ∧ p j t = true := by
  intro n l
  induction l generalizing n with
  | nil => intro j t h; simp [findFrom] at h
  | cons b l ih =>
    intro j t h
    unfold findFrom at h
    split at h
    · rename_i hpred
      obtain ⟨rfl, rfl⟩ : j = n ∧ t = b := by
        have := Option.some.inj h
        exact ⟨congrArg Prod.fst this |>.symm, congrArg Prod.snd this |>.symm⟩
      exact ⟨Nat.le_refl _, by simp, by simp, hpred⟩
    · rcases ih (n := n + 1) h with ⟨h1, h2, h3, h4⟩
      refine ⟨Nat.le_of_succ_le h1, ?_, ?_, h4⟩
      · have hi : j - n = (j - (n + 1)) + 1 := by omega
        simpa [hi] using Nat.succ_lt_succ h2
      · have hi : j - n = (j - (n + 1)) + 1 := by omega
        rw [hi]
        simpa using h3

theorem findFrom_zero_some {p : Nat → Team → Bool} {l : List Team} {j : Nat}
    {t : Team} (h : findFrom p 0 l = some (j, t)) :
    j < l.length ∧ l.getD j ⟨[], 0⟩ = t ∧ p j t = true := by
  rcases findFrom_some h with ⟨_, h2, h3, h4⟩
  exact ⟨h2, h3, h4⟩

theorem find_pair22_some {project_prefs : PrefMap} {used : List (Nat × Nat)}
    {i : Nat} {team2a : Team} {all2 : List Team} :
    ∀ {n : Nat} {l : List Team} {j : Nat} {b : Team} {k : Nat} {c : Team},
      find_pair22 project_prefs used i team2a all2 n l = some (j, b, k, c) →
      n ≤ j ∧ j - n < l.length ∧ l.getD (j - n) ⟨[], 0⟩ = b ∧
      i < j ∧ is_used used (2, j) = false ∧
      check_compatibility team2a b project_prefs = true ∧
      find_third2 project_prefs used j (listUnion team2a.members b.members) all2 =
        some (k, c) := by
  intro n l
  induction l generalizing n with
  | nil => intro j b k c h; simp [find_pair22] at h
  | cons x rest ih =>
    intro j b k c h
    unfold find_pair22 at h
    split at h
    · rename_i hpred
      rw [Bool.and_eq_true, Bool.and_eq_true] at hpred
      obtain ⟨⟨hij, hunused⟩, hcompat⟩ := hpred
      cases hthird : find_third2 project_prefs used n
          (listUnion team2a.members x.members) all2 with
      | none =>
        rw [hthird] at h
        rcases ih (n := n + 1) h with ⟨h1, h2, h3, h4, h5, h6, h7⟩
        refine ⟨Nat.le_of_succ_le h1, ?_, ?_, h4, h5, h6, h7⟩
        · have hi : j - n = (j - (n + 1)) + 1 := by omega
          simpa [hi] using Nat.succ_lt_succ h2
        · have hi : j - n = (j - (n + 1)) + 1 := by omega
          rw [hi]
          simpa using h3
      | some kc =>
        rw [hthird] at h
        obtain ⟨kk, cc⟩ := kc
        have hinj := Option.some.inj h
        obtain ⟨rfl, rfl, rfl, rfl⟩ : j = n ∧ b = x ∧ k = kk ∧ c = cc := by
          refine ⟨congrArg Prod.fst hinj |>.symm, ?_, ?_, ?_⟩
          · exact congrArg (fun q => q.2.1) hinj |>.symm
          · exact congrArg (fun q => q.2.2.1) hinj |>.symm
          · exact congrArg (fun q => q.2.2.2) hinj |>.symm
        refine ⟨Nat.le_refl _, by simp, by simp, ?_, ?_, hcompat, hthird⟩
        · simpa using hij
        · simpa using hunused
    · rcases ih (n := n + 1) h with ⟨h1, h2, h3, h4, h5, h6, h7⟩
      refine ⟨Nat.le_of_succ_le h1, ?_, ?_, h4, h5, h6, h7⟩
      · have hi : j - n = (j - (n + 1)) + 1 := by omega
        simpa [hi] using Nat.succ_lt_succ h2
      · have hi : j - n = (j - (n + 1)) + 1 := by omega
        rw [hi]
        simpa using h3

theorem find_pair21_some {project_prefs : PrefMap} {used : List (Nat × Nat)}
    {i : Nat} {team2a : Team} {inc1 : List Team} :
    ∀ {n : Nat} {l : List Team} {j : Nat} {b : Team} {k : Nat} {c : Team},
      find_pair21 project_prefs used i team2a inc1 n l = some (j, b, k, c) →
      n ≤ j ∧ j - n < l.length ∧ l.getD (j - n) ⟨[], 0⟩ = b ∧
      i < j ∧ is_used used (2, j) = false ∧
      check_compatibility team2a b project_prefs = true ∧
      find_third1 project_prefs used (listUnion team2a.members b.members) inc1 =
        some (k, c) := by
  intro n l
  induction l generalizing n with
  | nil => intro j b k c h; simp [find_pair21] at h
  | cons x rest ih =>
    intro j b k c h
    unfold find_pair21 at h
    split at h
    · rename_i hpred
      rw [Bool.and_eq_true, Bool.and_eq_true] at hpred
      obtain ⟨⟨hij, hunused⟩, hcompat⟩ := hpred
      cases hthird : find_third1 project_prefs used
          (listUnion team2a.members x.members) inc1 with
      | none =>
        rw [hthird] at h
        rcases ih (n := n + 1) h with ⟨h1, h2, h3, h4, h5, h6, h7⟩
        refine ⟨Nat.le_of_succ_le h1, ?_, ?_, h4, h5, h6, h7⟩
        · have hi : j - n = (j - (n + 1)) + 1 := by omega
          simpa [hi] using Nat.succ_lt_succ h2
        · have hi : j - n = (j - (n + 1)) + 1 := by omega
          rw [hi]
          simpa using h3
      | some kc =>
        rw [hthird] at h
        obtain ⟨kk, cc⟩ := kc
        have hinj := Option.some.inj h
        obtain ⟨rfl, rfl, rfl, rfl⟩ : j = n ∧ b = x ∧ k = kk ∧ c = cc := by
          refine ⟨congrArg Prod.fst hinj |>.symm, ?_, ?_, ?_⟩
          · exact congrArg (fun q => q.2.1) hinj |>.symm
          · exact congrArg (fun q => q.2.2.1) hinj |>.symm
          · exact congrArg (fun q => q.2.2.2) hinj |>.symm
        refine ⟨Nat.le_refl _, by simp, by simp, ?_, ?_, hcompat, hthird⟩
        · simpa using hij
        · simpa using hunused
    · rcases ih (n := n + 1) h with ⟨h1, h2, h3, h4, h5, h6, h7⟩
      refine ⟨Nat.le_of_succ_le h1, ?_, ?_, h4, h5, h6, h7⟩
      · have hi : j - n = (j - (n + 1)) + 1 := by omega
        simpa [hi] using Nat.succ_lt_succ h2
      · have hi : j - n = (j - (n + 1)) + 1 := by omega
        rw [hi]
        simpa using h3

theorem find_window_some {project_prefs : PrefMap} {gs : Nat} :
    ∀ {l w : List (Nat × Team)}, find_window project_prefs gs l = some w →
      w.length = gs ∧ w.Sublist l ∧
      0 < (calculate_team_project_prefs (window_members w) project_prefs).length := by
  intro l
  induction l with
  | nil => intro w h; simp [find_window] at h
  | cons x rest ih =>
    intro w h
    unfold find_window at h
    dsimp only at h
    split at h
    · rename_i hpred
      rw [Bool.and_eq_true] at hpred
      obtain ⟨hlen, hpos⟩ := hpred
      obtain rfl : (x :: rest).take gs = w := Option.some.inj h
      refine ⟨by simpa using hlen, List.take_sublist _ _, ?_⟩
      simpa using hpos
    · rcases ih h with ⟨h1, h2, h3⟩
      exact ⟨h1, h2.cons x, h3⟩

theorem check_compat_members_common {m1 m2 : List String} {project_prefs : PrefMap}
    (h : check_compat_members m1 m2 project_prefs = true) :
    hasCommonProject project_prefs (listUnion m1 m2) :=
  calc_pos_hasCommon (decide_eq_true_eq.mp h)

theorem teamAt_mem {incomplete : IncompleteBySize} {k : Nat × Nat}
    (h : keyValid incomplete k) :
    teamAt incomplete k ∈ incList incomplete k.1 := by
  unfold teamAt
  rw [List.getD_eq_getElem _ _ h.2]
  exact List.getElem_mem h.2

theorem mem_list_of_bounds {s : Nat} (h1 : 1 ≤ s) (h4 : s ≤ 4) :
    s ∈ [1, 2, 3, 4] := by
  interval_cases s <;> simp

theorem sized_at {incomplete : IncompleteBySize} (hsz : SizedEntries incomplete)
    {k : Nat × Nat} (hk : keyValid incomplete k) :
    (teamAt incomplete k).members.Nodup ∧
      (teamAt incomplete k).members.length = k.1 :=
  hsz k.1 (mem_list_of_bounds hk.1.1 hk.1.2) _ (teamAt_mem hk)

theorem disj_at {incomplete : IncompleteBySize} (hdisj : DisjointEntries incomplete)
    {k q : Nat × Nat} (hk : keyValid incomplete k) (hq : keyValid incomplete q)
    (hne : k ≠ q) :
    ∀ x ∈ (teamAt incomplete k).members, x ∉ (teamAt incomplete q).members := by
  have := hdisj k.1 (mem_list_of_bounds hk.1.1 hk.1.2) q.1
    (mem_list_of_bounds hq.1.1 hq.1.2) k.2 hk.2 q.2 hq.2
  exact this (by simpa using hne)

theorem mem_keysMembers {incomplete : IncompleteBySize} {ks : List (Nat × Nat)}
    {x : String} :
    x ∈ keysMembers incomplete ks ↔
      ∃ k ∈ ks, x ∈ (teamAt incomplete k).members := by
  induction ks with
  | nil => simp [keysMembers]
  | cons k ks ih =>
    unfold keysMembers at ih ⊢
    rw [List.foldr_cons, Finset.mem_union, ih]
    simp [List.mem_toFinset]

theorem keysMembers_card {incomplete : IncompleteBySize}
    (hsz : SizedEntries incomplete) (hdisj : DisjointEntries incomplete) :
    ∀ ks : List (Nat × Nat), ks.Nodup → (∀ k ∈ ks, keyValid incomplete k) →
      (keysMembers incomplete ks).card = (ks.map Prod.fst).sum := by
  intro ks
  induction ks with
  | nil => intro _ _; simp [keysMembers]
  | cons k ks ih =>
    intro hnd hval
    have hk : keyValid incomplete k := hval k (List.mem_cons.mpr (Or.inl rfl))
    have hdisjoint : Disjoint (teamAt incomplete k).members.toFinset
        (keysMembers incomplete ks) := by
      rw [Finset.disjoint_left]
      intro x hx hx'
      rcases mem_keysMembers.mp hx' with ⟨q, hqks, hxq⟩
      have hq : keyValid incomplete q := hval q (List.mem_cons.mpr (Or.inr hqks))
      have hkq : k ≠ q := by
        rintro rfl
        exact (List.nodup_cons.mp hnd).1 hqks
      exact disj_at hdisj hk hq hkq x (List.mem_toFinset.mp hx) hxq
    have hstep : keysMembers incomplete (k :: ks) =
        (teamAt incomplete k).members.toFinset ∪ keysMembers incomplete ks := rfl
    rw [hstep, Finset.card_union_of_disjoint hdisjoint,
      List.toFinset_card_of_nodup (sized_at hsz hk).1, (sized_at hsz hk).2,
      ih (List.nodup_cons.mp hnd).2
        (fun q hq => hval q (List.mem_cons.mpr (Or.inr hq)))]
    simp

theorem stepok_refl (incomplete : IncompleteBySize) (project_prefs : PrefMap)
    (st : MergeState) : StepOK incomplete project_prefs st st :=
  ⟨fun _ h => h, Or.inl ⟨rfl, rfl⟩⟩

theorem stepok_commit {incomplete : IncompleteBySize} {project_prefs : PrefMap}
    {st : MergeState} (members : List String) (keys : List (Nat × Nat))
    (size : Nat) (usedNew : List (Nat × Nat))
    (hsz : size = 5 ∨ size = 6)
    (hsum : size = (keys.map Prod.fst).sum)
    (hmem : members.toFinset = keysMembers incomplete keys)
    (hcommon : hasCommonProject project_prefs members)
    (hnd : keys.Nodup)
    (hkeys : ∀ k ∈ keys, keyValid incomplete k ∧ is_used st.used k = false)
    (hused : ∀ k, k ∈ usedNew ↔ k ∈ st.used ∨ k ∈ keys) :
    StepOK incomplete project_prefs st
      ⟨st.formed_teams ++ [⟨members, keys, size⟩], usedNew⟩ :=
  ⟨fun k hk => (hused k).mpr (Or.inl hk),
    Or.inr ⟨⟨members, keys, size⟩, rfl, ⟨hsz, hsum, hmem, hcommon, hnd, hkeys⟩, hused⟩⟩

theorem stinv_step {incomplete : IncompleteBySize} {project_prefs : PrefMap}
    {st stNew : MergeState}
    (hstep : StepOK incomplete project_prefs st stNew)
    (hinv : StInv incomplete project_prefs st) :
    StInv incomplete project_prefs stNew := by
  obtain ⟨hmono, hcase⟩ := hstep
  obtain ⟨hteams, hpair⟩ := hinv
  rcases hcase with ⟨hf, hu⟩ | ⟨F, hf, hok, hu⟩
  · constructor
    · intro G hG
      rw [hf] at hG
      obtain ⟨g1, g2, g3, g4, g5, g6⟩ := hteams G hG
      refine ⟨g1, g2, g3, g4, g5, fun k hk => ⟨(g6 k hk).1, ?_⟩⟩
      rw [hu]
      exact (g6 k hk).2
    · rw [hf]
      exact hpair
  · obtain ⟨hok1, hok2, hok3, hok4, hok5, hok6⟩ := hok
    constructor
    · intro G hG
      rw [hf] at hG
      rcases List.mem_append.mp hG with hG | hG
      · obtain ⟨g1, g2, g3, g4, g5, g6⟩ := hteams G hG
        exact ⟨g1, g2, g3, g4, g5,
          fun k hk => ⟨(g6 k hk).1, (hu k).mpr (Or.inl (g6 k hk).2)⟩⟩
      · rw [List.mem_singleton.mp hG]
        exact ⟨hok1, hok2, hok3, hok4, hok5,
          fun k hk => ⟨(hok6 k hk).1, (hu k).mpr (Or.inr hk)⟩⟩
    · rw [hf, List.pairwise_append]
      refine ⟨hpair, List.pairwise_singleton _ _, ?_⟩
      intro G hG G' hG' k hkG
      rw [List.mem_singleton.mp hG']
      intro hkF
      have hused := ((hteams G hG).2.2.2.2.2 k hkG).2
      have hnot := (hok6 k hkF).2
      exact is_used_false_iff.mp hnot hused

theorem teamAt_inc1 {incomplete : IncompleteBySize} {i : Nat} :
    teamAt incomplete (1, i) = incomplete.inc1.getD i ⟨[], 0⟩ := rfl

theorem teamAt_inc2 {incomplete : IncompleteBySize} {i : Nat} :
    teamAt incomplete (2, i) = incomplete.inc2.getD i ⟨[], 0⟩ := rfl

theorem teamAt_inc3 {incomplete : IncompleteBySize} {i : Nat} :
    teamAt incomplete (3, i) = incomplete.inc3.getD i ⟨[], 0⟩ := rfl

theorem teamAt_inc4 {incomplete : IncompleteBySize} {i : Nat} :
    teamAt incomplete (4, i) = incomplete.inc4.getD i ⟨[], 0⟩ := rfl

theorem keysMembers_pair {incomplete : IncompleteBySize} {k1 k2 : Nat × Nat} :
    keysMembers incomplete [k1, k2] =
      (teamAt incomplete k1).members.toFinset ∪
        (teamAt incomplete k2).members.toFinset := by
  show (teamAt incomplete k1).members.toFinset ∪
    ((teamAt incomplete k2).members.toFinset ∪ ∅) = _
  rw [Finset.union_empty]

theorem keysMembers_triple {incomplete : IncompleteBySize} {k1 k2 k3 : Nat × Nat} :
    keysMembers incomplete [k1, k2, k3] =
      ((teamAt incomplete k1).members.toFinset ∪
        (teamAt incomplete k2).members.toFinset) ∪
        (teamAt incomplete k3).members.toFinset := by
  show (teamAt incomplete k1).members.toFinset ∪
    ((teamAt incomplete k2).members.toFinset ∪
      ((teamAt incomplete k3).members.toFinset ∪ ∅)) = _
  rw [Finset.union_empty, Finset.union_assoc]

theorem strat1_step_ok (incomplete : IncompleteBySize) (project_prefs : PrefMap)
    (st : MergeState) (i : Nat) (t4 : Team)
    (hi : i < incomplete.inc4.length)
    (ht : incomplete.inc4.getD i ⟨[], 0⟩ = t4) :
    StepOK incomplete project_prefs st
      (strat1_step project_prefs incomplete.inc2 incomplete.inc1 st (i, t4)) := by
  unfold strat1_step
  dsimp only
  split
  · exact stepok_refl _ _ _
  · rename_i hused4
    rw [Bool.not_eq_true] at hused4
    cases hfind2 : findFrom (fun j team2 =>
        !(is_used st.used (2, j)) &&
          check_compatibility t4 team2 project_prefs) 0 incomplete.inc2 with
    | some jt =>
      obtain ⟨j, t2⟩ := jt
      obtain ⟨hj, ht2, hpred⟩ := findFrom_zero_some hfind2
      rw [Bool.and_eq_true, Bool.not_eq_true'] at hpred
      refine stepok_commit _ _ _ _ (Or.inr rfl) rfl ?_ ?_ (by simp) ?_ ?_
      · rw [listUnion_toFinset, keysMembers_pair, teamAt_inc4, teamAt_inc2, ht, ht2]
      · exact check_compat_members_common hpred.2
      · intro k hk
        rcases List.mem_cons.mp hk with rfl | hk
        · exact ⟨⟨⟨by omega, by omega⟩, hi⟩, hused4⟩
        · rw [List.mem_singleton.mp hk]
          exact ⟨⟨⟨by omega, by omega⟩, hj⟩, hpred.1⟩
      · intro k
        rw [mem_markUsed, mem_markUsed]
        simp only [List.mem_cons, List.mem_singleton, List.not_mem_nil, or_false]
        tauto
    | none =>
      cases hfind1 : findFrom (fun j team1 =>
          !(is_used st.used (1, j)) &&
            check_compatibility t4 team1 project_prefs) 0 incomplete.inc1 with
      | some jt =>
        obtain ⟨j, t1⟩ := jt
        obtain ⟨hj, ht1, hpred⟩ := findFrom_zero_some hfind1
        rw [Bool.and_eq_true, Bool.not_eq_true'] at hpred
        refine stepok_commit _ _ _ _ (Or.inl rfl) rfl ?_ ?_ (by simp) ?_ ?_
        · rw [listUnion_toFinset, keysMembers_pair, teamAt_inc4, teamAt_inc1, ht, ht1]
        · exact check_compat_members_common hpred.2
        · intro k hk
          rcases List.mem_cons.mp hk with rfl | hk
          · exact ⟨⟨⟨by omega, by omega⟩, hi⟩, hused4⟩
          · rw [List.mem_singleton.mp hk]
            exact ⟨⟨⟨by omega, by omega⟩, hj⟩, hpred.1⟩
        · intro k
          rw [mem_markUsed, mem_markUsed]
          simp only [List.mem_cons, List.mem_singleton, List.not_mem_nil, or_false]
          tauto
      | none =>
          exact stepok_refl _ _ _

theorem strat2_step_ok (incomplete : IncompleteBySize) (project_prefs : PrefMap)
    (st : MergeState) (i : Nat) (t3 : Team)
    (hi : i < incomplete.inc3.length)
    (ht : incomplete.inc3.getD i ⟨[], 0⟩ = t3) :
    StepOK incomplete project_prefs st
      (strat2_step project_prefs incomplete.inc3 incomplete.inc2 st (i, t3)) := by
  unfold strat2_step
  dsimp only
  split
  · exact stepok_refl _ _ _
  · rename_i hused3
    rw [Bool.not_eq_true] at hused3
    cases hfind3 : findFrom (fun j team3b =>
        decide (i < j) && !(is_used st.used (3, j)) &&
          check_compatibility t3 team3b project_prefs) 0 incomplete.inc3 with
    | some jt =>
      obtain ⟨j, t3b⟩ := jt
      obtain ⟨hj, ht3b, hpred⟩ := findFrom_zero_some hfind3
      rw [Bool.and_eq_true, Bool.and_eq_true, Bool.not_eq_true'] at hpred
      obtain ⟨⟨hij, hunused⟩, hcompat⟩ := hpred
      rw [decide_eq_true_eq] at hij
      refine stepok_commit _ _ _ _ (Or.inr rfl) rfl ?_ ?_ ?_ ?_ ?_
      · rw [listUnion_toFinset, keysMembers_pair, teamAt_inc3, teamAt_inc3, ht, ht3b]
      · exact check_compat_members_common hcompat
      · simp only [List.nodup_cons, List.mem_singleton, List.not_mem_nil,
          not_false_iff, and_true, List.nodup_nil]
        intro hcontra
        rw [Prod.mk.injEq] at hcontra
        omega
      · intro k hk
        rcases List.mem_cons.mp hk with rfl | hk
        · exact ⟨⟨⟨by omega, by omega⟩, hi⟩, hused3⟩
        · rw [List.mem_singleton.mp hk]
          exact ⟨⟨⟨by omega, by omega⟩, hj⟩, hunused⟩
      · intro k
        rw [mem_markUsed, mem_markUsed]
        simp only [List.mem_cons, List.mem_singleton, List.not_mem_nil, or_false]
        tauto
    | none =>
      cases hfind2 : findFrom (fun j team2 =>
          !(is_used st.used (2, j)) &&
            check_compatibility t3 team2 project_prefs) 0 incomplete.inc2 with
      | some jt =>
        obtain ⟨j, t2⟩ := jt
        obtain ⟨hj, ht2, hpred⟩ := findFrom_zero_some hfind2
        rw [Bool.and_eq_true, Bool.not_eq_true'] at hpred
        refine stepok_commit _ _ _ _ (Or.inl rfl) rfl ?_ ?_ (by simp) ?_ ?_
        · rw [listUnion_toFinset, keysMembers_pair, teamAt_inc3, teamAt_inc2, ht, ht2]
        · exact check_compat_members_common hpred.2
        · intro k hk
          rcases List.mem_cons.mp hk with rfl | hk
          · exact ⟨⟨⟨by omega, by omega⟩, hi⟩, hused3⟩
          · rw [List.mem_singleton.mp hk]
            exact ⟨⟨⟨by omega, by omega⟩, hj⟩, hpred.1⟩
        · intro k
          rw [mem_markUsed, mem_markUsed]
          simp only [List.mem_cons, List.mem_singleton, List.not_mem_nil, or_false]
          tauto
      | none =>
          exact stepok_refl _ _ _

theorem strat3_step_ok (incomplete : IncompleteBySize) (project_prefs : PrefMap)
    (st : MergeState) (i : Nat) (t2a : Team)
    (hi : i < incomplete.inc2.length)
    (ht : incomplete.inc2.getD i ⟨[], 0⟩ = t2a) :
    StepOK incomplete project_prefs st
      (strat3_step project_prefs incomplete.inc2 incomplete.inc1 st (i, t2a)) := by
  unfold strat3_step
  dsimp only
  split
  · exact stepok_refl _ _ _
  · rename_i hused2
    rw [Bool.not_eq_true] at hused2
    cases hfind : find_pair22 project_prefs st.used i t2a incomplete.inc2 0
        incomplete.inc2 with
    | some jbkc =>
      obtain ⟨j, b, k, c⟩ := jbkc
      obtain ⟨_, hj, hb, hij, hjunused, hcompat, hthird⟩ := find_pair22_some hfind
      obtain ⟨hk, hc, hpredk⟩ := findFrom_zero_some hthird
      rw [Bool.and_eq_true, Bool.and_eq_true, Bool.not_eq_true'] at hpredk
      obtain ⟨⟨hjk, hkunused⟩, hcompat3⟩ := hpredk
      rw [decide_eq_true_eq] at hjk
      simp only [Nat.sub_zero] at hj hb
      refine stepok_commit _ _ _ _ (Or.inr rfl) rfl ?_ ?_ ?_ ?_ ?_
      · rw [listUnion_toFinset, listUnion_toFinset, keysMembers_triple,
          teamAt_inc2, teamAt_inc2, teamAt_inc2, ht, hb, hc]
      · exact check_compat_members_common hcompat3
      · simp only [List.nodup_cons, List.mem_cons, List.mem_singleton,
          List.not_mem_nil, not_false_iff, and_true, List.nodup_nil, not_or]
        refine ⟨⟨?_, ?_⟩, ?_⟩ <;>
          · intro hcontra
            rw [Prod.mk.injEq] at hcontra
            omega
      · intro q hq
        rcases List.mem_cons.mp hq with rfl | hq
        · exact ⟨⟨⟨by omega, by omega⟩, hi⟩, hused2⟩
        · rcases List.mem_cons.mp hq with rfl | hq
          · exact ⟨⟨⟨by omega, by omega⟩, hj⟩, hjunused⟩
          · rw [List.mem_singleton.mp hq]
            exact ⟨⟨⟨by omega, by omega⟩, hk⟩, hkunused⟩
      · intro q
        rw [mem_markUsed, mem_markUsed, mem_markUsed]
        simp only [List.mem_cons, List.mem_singleton, List.not_mem_nil, or_false]
        tauto
    | none =>
      cases hfind21 : find_pair21 project_prefs st.used i t2a incomplete.inc1 0
          incomplete.inc2 with
      | some jbkc =>
        obtain ⟨j, b, k, c⟩ := jbkc
        obtain ⟨_, hj, hb, hij, hjunused, hcompat, hthird⟩ := find_pair21_some hfind21
        obtain ⟨hk, hc, hpredk⟩ := findFrom_zero_some hthird
        rw [Bool.and_eq_true, Bool.not_eq_true'] at hpredk
        obtain ⟨hkunused, hcompat3⟩ := hpredk
        simp only [Nat.sub_zero] at hj hb
        refine stepok_commit _ _ _ _ (Or.inl rfl) rfl ?_ ?_ ?_ ?_ ?_
        · rw [listUnion_toFinset, listUnion_toFinset, keysMembers_triple,
            teamAt_inc2, teamAt_inc2, teamAt_inc1, ht, hb, hc]
        · exact check_compat_members_common hcompat3
        · simp only [List.nodup_cons, List.mem_cons, List.mem_singleton,
            List.not_mem_nil, not_false_iff, and_true, List.nodup_nil, not_or]
          refine ⟨⟨?_, ?_⟩, ?_⟩ <;>
            · intro hcontra
              rw [Prod.mk.injEq] at hcontra
              omega
        · intro q hq
          rcases List.mem_cons.mp hq with rfl | hq
          · exact ⟨⟨⟨by omega, by omega⟩, hi⟩, hused2⟩
          · rcases List.mem_cons.mp hq with rfl | hq
            · exact ⟨⟨⟨by omega, by omega⟩, hj⟩, hjunused⟩
            · rw [List.mem_singleton.mp hq]
              exact ⟨⟨⟨by omega, by omega⟩, hk⟩, hkunused⟩
        · intro q
          rw [mem_markUsed, mem_markUsed, mem_markUsed]
          simp only [List.mem_cons, List.mem_singleton, List.not_mem_nil, or_false]
          tauto
      | none =>
          exact stepok_refl _ _ _

theorem mem_avail {inc1 : List Team} {used : List (Nat × Nat)} {p : Nat × Team}
    (h : p ∈ available_individuals inc1 used) :
    p.1 < inc1.length ∧ inc1.getD p.1 ⟨[], 0⟩ = p.2 ∧
      is_used used (1, p.1) = false := by
  rcases List.mem_filter.mp h with ⟨hmem, hpred⟩
  obtain ⟨i, t⟩ := p
  obtain ⟨h1, h2⟩ := mem_enumFrom_zero (⟨[], 0⟩ : Team) hmem
  refine ⟨h1, h2, ?_⟩
  simpa using hpred

theorem avail_pairwise (inc1 : List Team) (used : List (Nat × Nat)) :
    (available_individuals inc1 used).Pairwise (fun p q => p.1 < q.1) :=
  (enumFrom_pairwise 0 inc1).filter _

theorem mem_window_members {w : List (Nat × Team)} {x : String} :
    x ∈ window_members w ↔ ∃ p ∈ w, x ∈ p.2.members := by
  have haux : ∀ (w : List (Nat × Team)) (acc : List String),
      x ∈ w.foldl (fun a p => listUnion a p.2.members) acc ↔
        x ∈ acc ∨ ∃ p ∈ w, x ∈ p.2.members := by
    intro w
    induction w with
    | nil => intro acc; simp
    | cons q w ih =>
      intro acc
      rw [List.foldl_cons, ih, mem_listUnion]
      simp only [List.mem_cons]
      constructor
      · rintro ((h | h) | ⟨p, hp, hx⟩)
        · exact Or.inl h
        · exact Or.inr ⟨q, Or.inl rfl, h⟩
        · exact Or.inr ⟨p, Or.inr hp, hx⟩
      · rintro (h | ⟨p, (rfl | hp), hx⟩)
        · exact Or.inl (Or.inl h)
        · exact Or.inl (Or.inr hx)
        · exact Or.inr ⟨p, hp, hx⟩
  simpa using haux w []

theorem window_members_toFinset {incomplete : IncompleteBySize}
    {w : List (Nat × Team)} (hta : ∀ p ∈ w, teamAt incomplete (1, p.1) = p.2) :
    (window_members w).toFinset =
      keysMembers incomplete (w.map (fun p => (1, p.1))) := by
  ext x
  rw [List.mem_toFinset, mem_window_members, mem_keysMembers]
  constructor
  · rintro ⟨p, hp, hx⟩
    exact ⟨(1, p.1), List.mem_map.mpr ⟨p, hp, rfl⟩, by rw [hta p hp]; exact hx⟩
  · rintro ⟨k, hk, hx⟩
    rcases List.mem_map.mp hk with ⟨p, hp, rfl⟩
    exact ⟨p, hp, by rw [← hta p hp]; exact hx⟩

theorem window_keys_sum (w : List (Nat × Team)) :
    ((w.map (fun p => ((1 : Nat), p.1))).map Prod.fst).sum = w.length := by
  induction w with
  | nil => rfl
  | cons p w ih =>
    simp only [List.map_cons, List.sum_cons, List.length_cons, List.map_map] at ih ⊢
    omega

theorem mem_foldl_markUsed :
    ∀ (w : List (Nat × Team)) (u : List (Nat × Nat)) (k : Nat × Nat),
      k ∈ w.foldl (fun u p => markUsed u (1, p.1)) u ↔
        k ∈ u ∨ k ∈ w.map (fun p => ((1 : Nat), p.1)) := by
  intro w
  induction w with
  | nil => intro u k; simp
  | cons p w ih =>
    intro u k
    rw [List.foldl_cons, ih, mem_markUsed]
    simp only [List.map_cons, List.mem_cons]
    tauto

theorem commit_window_ok (incomplete : IncompleteBySize) (project_prefs : PrefMap)
    (st : MergeState) (w : List (Nat × Team)) (gs : Nat)
    (hgs : gs = 5 ∨ gs = 6)
    (hfind : find_window project_prefs gs
      (available_individuals incomplete.inc1 st.used) = some w) :
    StepOK incomplete project_prefs st (commit_window st w gs) := by
  obtain ⟨hlen, hsub, hpos⟩ := find_window_some hfind
  have hwmem : ∀ p ∈ w, p.1 < incomplete.inc1.length ∧
      incomplete.inc1.getD p.1 ⟨[], 0⟩ = p.2 ∧
      is_used st.used (1, p.1) = false :=
    fun p hp => mem_avail (hsub.subset hp)
  have hta : ∀ p ∈ w, teamAt incomplete (1, p.1) = p.2 := by
    intro p hp
    rw [teamAt_inc1]
    exact (hwmem p hp).2.1
  have hpw : w.Pairwise (fun p q => p.1 < q.1) :=
    (avail_pairwise _ _).sublist hsub
  have hnd : (w.map (fun p => ((1 : Nat), p.1))).Nodup := by
    refine List.Pairwise.map _ ?_ hpw
    intro p q hpq
    simp only [ne_eq, Prod.mk.injEq, not_and]
    intro _
    omega
  refine stepok_commit _ _ _ _ hgs ?_ ?_ ?_ hnd ?_ ?_
  · rw [window_keys_sum, hlen]
  · exact window_members_toFinset hta
  · exact calc_pos_hasCommon hpos
  · intro k hk
    rcases List.mem_map.mp hk with ⟨p, hp, rfl⟩
    exact ⟨⟨⟨by omega, by omega⟩, (hwmem p hp).1⟩, (hwmem p hp).2.2⟩
  · intro k
    exact mem_foldl_markUsed w st.used k

theorem strat4_loop_inv (incomplete : IncompleteBySize) (project_prefs : PrefMap) :
    ∀ (fuel : Nat) (st : MergeState), StInv incomplete project_prefs st →
      StInv incomplete project_prefs
        (strat4_loop project_prefs incomplete.inc1 fuel st) := by
  intro fuel
  induction fuel with
  | zero => intro st h; exact h
  | succ fuel ih =>
    intro st h
    unfold strat4_loop
    dsimp only
    split
    · exact h
    · cases hfind6 : find_window project_prefs 6
        (available_individuals incomplete.inc1 st.used) with
      | some w =>
        exact ih _ (stinv_step
          (commit_window_ok incomplete project_prefs st w 6 (Or.inr rfl) hfind6) h)
      | none =>
        cases hfind5 : find_window project_prefs 5
            (available_individuals incomplete.inc1 st.used) with
        | some w =>
          exact ih _ (stinv_step
            (commit_window_ok incomplete project_prefs st w 5 (Or.inl rfl) hfind5) h)
        | none => exact h

theorem strat1_foldl_inv (incomplete : IncompleteBySize) (project_prefs : PrefMap) :
    ∀ (L : List (Nat × Team)) (st : MergeState),
      (∀ p ∈ L, p.1 < incomplete.inc4.length ∧
        incomplete.inc4.getD p.1 ⟨[], 0⟩ = p.2) →
      StInv incomplete project_prefs st →
      StInv incomplete project_prefs
        (L.foldl (strat1_step project_prefs incomplete.inc2 incomplete.inc1) st) := by
  intro L
  induction L with
  | nil => intro st _ h; exact h
  | cons p L ih =>
    intro st hL h
    rw [List.foldl_cons]
    obtain ⟨hp1, hp2⟩ := hL p (List.mem_cons.mpr (Or.inl rfl))
    exact ih _ (fun q hq => hL q (List.mem_cons.mpr (Or.inr hq)))
      (stinv_step (strat1_step_ok incomplete project_prefs st p.1 p.2 hp1 hp2) h)

theorem strat2_foldl_inv (incomplete : IncompleteBySize) (project_prefs : PrefMap) :
    ∀ (L : List (Nat × Team)) (st : MergeState),
      (∀ p ∈ L, p.1 < incomplete.inc3.length ∧
        incomplete.inc3.getD p.1 ⟨[], 0⟩ = p.2) →
      StInv incomplete project_prefs st →
      StInv incomplete project_prefs
        (L.foldl (strat2_step project_prefs incomplete.inc3 incomplete.inc2) st) := by
  intro L
  induction L with
  | nil => intro st _ h; exact h
  | cons p L ih =>
    intro st hL h
    rw [List.foldl_cons]
    obtain ⟨hp1, hp2⟩ := hL p (List.mem_cons.mpr (Or.inl rfl))
    exact ih _ (fun q hq => hL q (List.mem_cons.mpr (Or.inr hq)))
      (stinv_step (strat2_step_ok incomplete project_prefs st p.1 p.2 hp1 hp2) h)

theorem strat3_foldl_inv (incomplete : IncompleteBySize) (project_prefs : PrefMap) :
    ∀ (L : List (Nat × Team)) (st : MergeState),
      (∀ p ∈ L, p.1 < incomplete.inc2.length ∧
        incomplete.inc2.getD p.1 ⟨[], 0⟩ = p.2) →
      StInv incomplete project_prefs st →
      StInv incomplete project_prefs
        (L.foldl (strat3_step project_prefs incomplete.inc2 incomplete.inc1) st) := by
  intro L
  induction L with
  | nil => intro st _ h; exact h
  | cons p L ih =>
    intro st hL h
    rw [List.foldl_cons]
    obtain ⟨hp1, hp2⟩ := hL p (List.mem_cons.mpr (Or.inl rfl))
    exact ih _ (fun q hq => hL q (List.mem_cons.mpr (Or.inr hq)))
      (stinv_step (strat3_step_ok incomplete project_prefs st p.1 p.2 hp1 hp2) h)

theorem enumFrom_zero_fact (l : List Team) :
    ∀ p ∈ enumFrom 0 l, p.1 < l.length ∧ l.getD p.1 ⟨[], 0⟩ = p.2 := by
  intro p hp
  obtain ⟨i, t⟩ := p
  exact mem_enumFrom_zero _ hp

theorem merge_state_inv (incomplete : IncompleteBySize) (project_prefs : PrefMap) :
    StInv incomplete project_prefs (merge_state incomplete project_prefs) := by
  unfold merge_state
  refine strat4_loop_inv incomplete project_prefs _ _
    (strat3_foldl_inv incomplete project_prefs _ _ (enumFrom_zero_fact _)
      (strat2_foldl_inv incomplete project_prefs _ _ (enumFrom_zero_fact _)
        (strat1_foldl_inv incomplete project_prefs _ _ (enumFrom_zero_fact _) ?_)))
  constructor
  · intro F hF
    simp at hF
  · simp

theorem unmatched_part {incomplete : IncompleteBySize} {used : List (Nat × Nat)}
    {s : Nat} {u : Team} (hs1 : 1 ≤ s) (hs4 : s ≤ 4)
    (h : u ∈ ((enumFrom 0 (incList incomplete s)).filter
      (fun p => !(is_used used (s, p.1)))).map Prod.snd) :
    ∃ k, keyValid incomplete k ∧ is_used used k = false ∧
      teamAt incomplete k = u := by
  rcases List.mem_map.mp h with ⟨p, hp, rfl⟩
  rcases List.mem_filter.mp hp with ⟨hmem, hpred⟩
  obtain ⟨i, t⟩ := p
  obtain ⟨h1, h2⟩ := mem_enumFrom_zero (⟨[], 0⟩ : Team) hmem
  refine ⟨(s, i), ⟨⟨hs1, hs4⟩, h1⟩, by simpa using hpred, ?_⟩
  unfold teamAt
  exact h2

theorem mem_collect_unmatched {incomplete : IncompleteBySize}
    {used : List (Nat × Nat)} {u : Team}
    (h : u ∈ collect_unmatched incomplete used) :
    ∃ k, keyValid incomplete k ∧ is_used used k = false ∧
      teamAt incomplete k = u := by
  unfold collect_unmatched at h
  rcases List.mem_append.mp h with h | h
  · rcases List.mem_append.mp h with h | h
    · rcases List.mem_append.mp h with h | h
      · exact unmatched_part (by omega) (by omega) (s := 4) h
      · exact unmatched_part (by omega) (by omega) (s := 3) h
    · exact unmatched_part (by omega) (by omega) (s := 2) h
  · exact unmatched_part (by omega) (by omega) (s := 1) h

/-- Claim C1: when the incomplete-subteam map holds pairwise-disjoint subteams
of the listed sizes, every formed team has recorded size 5 or 6 equal to its
member-set size, a non-empty common-project intersection, pairwise-distinct
source subteams (each input subteam is consumed by at most one formed team),
and no consumed subteam reappears in the unmatched list. -/
theorem C1_merge_invariants (incomplete : IncompleteBySize)
    (project_prefs : PrefMap)
    (hsz : SizedEntries incomplete) (hdisj : DisjointEntries incomplete) :
    (∀ F ∈ (merge_subteams_into_teams incomplete project_prefs).formed_teams,
      (F.size = 5 ∨ F.size = 6) ∧
      F.members.toFinset.card = F.size ∧
      hasCommonProject project_prefs F.members ∧
      F.source_keys.Nodup) ∧
    (merge_subteams_into_teams incomplete project_prefs).formed_teams.Pairwise
      (fun F G => ∀ k ∈ F.source_keys, k ∉ G.source_keys) ∧
    (∀ F ∈ (merge_subteams_into_teams incomplete project_prefs).formed_teams,
      ∀ k ∈ F.source_keys,
        ∀ u ∈ (merge_subteams_into_teams incomplete project_prefs).unmatched,
          u.members.toFinset ≠ (teamAt incomplete k).members.toFinset) := by
  obtain ⟨hteams, hpair⟩ := merge_state_inv incomplete project_prefs
  have hformed : (merge_subteams_into_teams incomplete project_prefs).formed_teams =
      (merge_state incomplete project_prefs).formed_teams := rfl
  have hunmatched : (merge_subteams_into_teams incomplete project_prefs).unmatched =
      collect_unmatched incomplete (merge_state incomplete project_prefs).used := rfl
  refine ⟨?_, ?_, ?_⟩
  · intro F hF
    rw [hformed] at hF
    obtain ⟨g1, g2, g3, g4, g5, g6⟩ := hteams F hF
    refine ⟨g1, ?_, g4, g5⟩
    rw [g3, keysMembers_card hsz hdisj F.source_keys g5 (fun k hk => (g6 k hk).1),
      ← g2]
  · rw [hformed]
    exact hpair
  · intro F hF k hk u hu
    rw [hformed] at hF
    rw [hunmatched] at hu
    obtain ⟨g1, g2, g3, g4, g5, g6⟩ := hteams F hF
    obtain ⟨hkvalid, hkused⟩ := g6 k hk
    obtain ⟨q, hqvalid, hqunused, hqteam⟩ := mem_collect_unmatched hu
    have hkq : q ≠ k := by
      rintro rfl
      exact is_used_false_iff.mp hqunused hkused
    intro heq
    have hqnonempty : (teamAt incomplete q).members ≠ [] := by
      intro hnil
      have hlen := (sized_at hsz hqvalid).2
      rw [hnil] at hlen
      simp only [List.length_nil] at hlen
      have hq1 := hqvalid.1.1
      omega
    obtain ⟨x, hx⟩ := List.exists_mem_of_ne_nil _ hqnonempty
    have hxk : x ∈ (teamAt incomplete k).members := by
      have hx1 : x ∈ u.members.toFinset := by
        rw [← hqteam]
        exact List.mem_toFinset.mpr hx
      rw [heq] at hx1
      exact List.mem_toFinset.mp hx1
    exact disj_at hdisj hqvalid hkvalid hkq x hx hxk

/-- Witness for C1: one size-4 and one size-2 subteam sharing project `P`
merge into a single team of six. -/
theorem C1_witness :
    SizedEntries ⟨[], [⟨["e", "f"], 2⟩], [], [⟨["a", "b", "c", "d"], 4⟩]⟩ ∧
    DisjointEntries ⟨[], [⟨["e", "f"], 2⟩], [], [⟨["a", "b", "c", "d"], 4⟩]⟩ ∧
    (∀ F ∈ (merge_subteams_into_teams
        ⟨[], [⟨["e", "f"], 2⟩], [], [⟨["a", "b", "c", "d"], 4⟩]⟩
        [("a", [("P", 1)]), ("b", [("P", 1)]), ("c", [("P", 1)]),
          ("d", [("P", 1)]), ("e", [("P", 2)]), ("f", [("P", 3)])]).formed_teams,
      (F.size = 5 ∨ F.size = 6) ∧
      F.members.toFinset.card = F.size ∧
      hasCommonProject
        [("a", [("P", 1)]), ("b", [("P", 1)]), ("c", [("P", 1)]),
          ("d", [("P", 1)]), ("e", [("P", 2)]), ("f", [("P", 3)])] F.members ∧
      F.source_keys.Nodup) :=
  ⟨by unfold SizedEntries; decide, by unfold DisjointEntries; decide,
    (C1_merge_invariants
      ⟨[], [⟨["e", "f"], 2⟩], [], [⟨["a", "b", "c", "d"], 4⟩]⟩
      [("a", [("P", 1)]), ("b", [("P", 1)]), ("c", [("P", 1)]),
        ("d", [("P", 1)]), ("e", [("P", 2)]), ("f", [("P", 3)])]
      (by unfold SizedEntries; decide) (by unfold DisjointEntries; decide)).1⟩

/-- Claim C10: a group with a member who has no recorded project preferences
has an empty common-preference result, is incompatible with every other group
in either argument order, and its member can appear in no team formed by the
merger. -/
theorem C10_empty_prefs_blocks_merge (project_prefs : PrefMap) (g : Team)
    (m : String) (hm : m ∈ g.members)
    (hempty : memberProjects project_prefs m = []) :
    calculate_team_project_prefs g.members project_prefs = [] ∧
    (∀ g' : Team, check_compatibility g g' project_prefs = false ∧
      check_compatibility g' g project_prefs = false) ∧
    (∀ incomplete : IncompleteBySize,
      ∀ F ∈ (merge_subteams_into_teams incomplete project_prefs).formed_teams,
        m ∉ F.members) := by
  have hnocommon : ∀ members : List String, m ∈ members →
      ¬hasCommonProject project_prefs members := by
    rintro members hmem ⟨p, hp⟩
    have := hp m hmem
    rw [hempty] at this
    simp at this
  refine ⟨?_, ?_, ?_⟩
  · cases hg : g.members with
    | nil => rw [hg] at hm; simp at hm
    | cons t0 rest =>
      rw [hg] at hm
      by_contra hne
      have hpos : 0 < (calculate_team_project_prefs (t0 :: rest) project_prefs).length := by
        cases hc : calculate_team_project_prefs (t0 :: rest) project_prefs with
        | nil => exact absurd hc hne
        | cons y ys => simp [hc]
      exact hnocommon (t0 :: rest) hm (calc_pos_iff.mp hpos)
  · intro g'
    constructor
    · cases hval : check_compatibility g g' project_prefs with
      | false => rfl
      | true =>
        exact absurd (calc_pos_hasCommon (decide_eq_true_eq.mp hval))
          (hnocommon _ (mem_listUnion.mpr (Or.inl hm)))
    · cases hval : check_compatibility g' g project_prefs with
      | false => rfl
      | true =>
        exact absurd (calc_pos_hasCommon (decide_eq_true_eq.mp hval))
          (hnocommon _ (mem_listUnion.mpr (Or.inr hm)))
  · intro incomplete F hF hmF
    obtain ⟨hteams, _⟩ := merge_state_inv incomplete project_prefs
    exact hnocommon F.members hmF (hteams F hF).2.2.2.1

/-- Witness for C10: student `a` has no recorded preferences, so the pair
group containing them blocks every compatibility check. -/
theorem C10_witness :
    calculate_team_project_prefs (Team.members ⟨["a", "b"], 2⟩)
      [("b", [("P", 1)])] = [] ∧
    (∀ g' : Team, check_compatibility ⟨["a", "b"], 2⟩ g' [("b", [("P", 1)])] = false ∧
      check_compatibility g' ⟨["a", "b"], 2⟩ [("b", [("P", 1)])] = false) ∧
    (∀ incomplete : IncompleteBySize,
      ∀ F ∈ (merge_subteams_into_teams incomplete [("b", [("P", 1)])]).formed_teams,
        "a" ∉ F.members) :=
  C10_empty_prefs_blocks_merge [("b", [("P", 1)])] ⟨["a", "b"], 2⟩ "a"
    (by decide) (by decide)

end TeamFormation
